import Mathlib

/-!
Verification of the cooperative card-game engine ("The Game") against its
design specification.  The engine lives in `main.py`: a `Player` class with
the greedy `determine_best_single_card` heuristic, and a `Game` class
(a gymnasium environment) whose `step` method validates plays, scores them,
advances turns and detects the win/loss terminals.

The embedding below follows the Python source line by line:

* card and pile-top values are integers (`ℤ`);
* Python float scores are modelled as exact rationals (`ℚ`); the literal
  `0.1` becomes `1/10` and `(x)**2/(2*(98**2))` becomes the exact rational
  quotient;
* Python `list.pop()` (pop from the end) becomes `getLast`/`dropLast`,
  `list.remove(x)` (drop the first occurrence of a value) becomes
  `List.erase`, and in-place mutation of `self` becomes explicit state
  passing on the `Game` structure;
* the `random.shuffle` in `reset` is modelled by passing the shuffled deck
  in as a parameter (any permutation of `[2, …, 99]`).
-/

namespace TheGame

/-- `Player.__init__`: a stable id, the current hand, and the cards this
player has seen played (`seen_cards`). -/
structure Player where
  player_id : ℕ
  hand : List ℤ
  seen_cards : List ℤ
deriving Repr, DecidableEq, Inhabited

/-- Inner loop of `Player.determine_best_single_card` over one ascending
pile (`for pile in up_piles:` body).  `claim_score` is `0` in the source
(the `claimed_piles.get` is commented out).  The Python float `0.1`
is the exact rational `1/10` here. -/
def upPileScan (cards_seen : List ℤ) (card : ℤ) (acc : ℚ × ℤ) (pile : ℤ) : ℚ × ℤ :=
  let acc1 :=
    if card = pile - 10 then ((-10 : ℚ), pile)
    else if card > pile then (((card - pile : ℤ) : ℚ), pile)
    else acc
  if card - 10 ∈ cards_seen then (acc1.1 + 1/10, acc1.2) else acc1

/-- Inner loop of `Player.determine_best_single_card` over one descending
pile (`for pile in down_piles:` body).  Note the extra
`cur_score > (pile-card)` condition that the ascending loop lacks. -/
def downPileScan (cards_seen : List ℤ) (card : ℤ) (acc : ℚ × ℤ) (pile : ℤ) : ℚ × ℤ :=
  let acc1 :=
    if card = pile + 10 then ((-10 : ℚ), pile)
    else if card < pile ∧ acc.1 > ((pile - card : ℤ) : ℚ) then (((pile - card : ℤ) : ℚ), pile)
    else acc
  if card + 10 ∈ cards_seen then (acc1.1 + 1/10, acc1.2) else acc1

/-- The per-card body of `determine_best_single_card`: starting from
`cur_score = 101`, `cur_pile = 101`, scan all ascending piles and then all
descending piles. -/
def cardScan (up_piles down_piles cards_seen : List ℤ) (card : ℤ) : ℚ × ℤ :=
  down_piles.foldl (downPileScan cards_seen card)
    (up_piles.foldl (upPileScan cards_seen card) ((101 : ℚ), (101 : ℤ)))

/-- The triple `(MIN_CARD, MIN_SCORE, MIN_PILE)` returned by
`determine_best_single_card`. -/
structure BestChoice where
  MIN_CARD : Option ℤ
  MIN_SCORE : ℚ
  MIN_PILE : ℤ
deriving Repr, DecidableEq

/-- `Player.determine_best_single_card(up_piles, down_piles, hand,
cards_seen, claimed_piles)`.  The outer loop keeps the strictly smallest
`cur_score` seen so far (`if cur_score < MIN_SCORE`), so ties keep the
earlier hand card.  `claimed_piles` is accepted but unused in the source
(its contribution `claim_score` is commented out to `0`). -/
def determine_best_single_card (up_piles down_piles : List ℤ) (hand : List ℤ)
    (cards_seen : List ℤ) (_claimed_piles : List (ℕ × List ℕ)) : BestChoice :=
  hand.foldl (fun acc card =>
    let cur := cardScan up_piles down_piles cards_seen card
    if cur.1 < acc.MIN_SCORE then ⟨some card, cur.1, cur.2⟩ else acc)
    ⟨none, 101, 101⟩

/-- The aggregate game state: every instance attribute of `Game` that the
engine reads or writes (`action_space`/`observation_space` are static
metadata and are not part of the mutable state). -/
structure Game where
  num_players : ℕ
  hand_size : ℕ
  num_must_play : ℕ
  num_must_play_init : ℕ
  pile_config : ℕ × ℕ
  pile_starts : ℤ × ℤ
  current_player_num_played : ℕ
  phase : ℕ
  TURN : ℕ
  claim_phase_turn : ℕ
  claimed_piles : List (ℕ × List ℕ)
  deck : List ℤ
  piles_up : List ℤ
  piles_down : List ℤ
  players : List Player
deriving Repr, DecidableEq, Inhabited

/-- `Game._base_3_conv(n, p)`: the `p` base-3 digits of `n`, most
significant first (the loop writes `arr[-i-1] = n % 3; n //= 3`; the
early `break` once `n == 0` only skips writing zeros, so it does not
change the result). -/
def base_3_conv (n : ℕ) : ℕ → List ℕ
  | 0 => []
  | p + 1 => base_3_conv (n / 3) p ++ [n % 3]

/-- `Game.check_if_game_done`: sum the hand sizes of all players and
compare with zero.  (The deck is not consulted.) -/
def Game.check_if_game_done (g : Game) : Bool :=
  (g.players.foldl (fun acc p => acc + p.hand.length) 0) == 0

/-- The body of the draw loop of `step` (and of `play_game`):
`while len(deck) > 0 and len(hand) < hand_size: hand.append(deck.pop())`.
`fuel` is the structural termination bound: every iteration pops one deck
card, so `deck.length` iterations always suffice and the loop semantics
is unchanged.  `pop()` takes from the end of the deck. -/
def drawLoopFuel : ℕ → List ℤ → List ℤ → ℕ → List ℤ × List ℤ
  | 0, deck, hand, _ => (deck, hand)
  | fuel + 1, deck, hand, hand_size =>
    if h : deck ≠ [] ∧ hand.length < hand_size then
      drawLoopFuel fuel deck.dropLast (hand ++ [deck.getLast h.1]) hand_size
    else (deck, hand)

/-- The draw loop itself: run the body with fuel `deck.length`.  Returns
the new `(deck, hand)`. -/
def drawLoop (deck hand : List ℤ) (hand_size : ℕ) : List ℤ × List ℤ :=
  drawLoopFuel deck.length deck hand hand_size

/-- Functional update of the `claimed_piles` dictionary at key `k`
(insertion order preserved, as in a Python `dict`). -/
def setAssoc (cl : List (ℕ × List ℕ)) (k : ℕ) (v : List ℕ) : List (ℕ × List ℕ) :=
  if (cl.lookup k).isSome then cl.map (fun kv => if kv.1 = k then (k, v) else kv)
  else cl ++ [(k, v)]

/-- The claim loop of `step` (`for i in range(len(pile_list)): ...`).
`i` is the running pile index, `pid` the claiming player's id.  Returns
the updated dictionary together with `true`, or — on an invalid claim
strength or an already-present claim — the dictionary as mutated so far
together with `false` (the source `return`s mid-loop, keeping earlier
mutations). -/
def claimLoop (pid : ℕ) : List ℕ → ℕ → List (ℕ × List ℕ) → List (ℕ × List ℕ) × Bool
  | [], _i, cl => (cl, true)
  | s :: rest, i, cl =>
    if ¬(s = 0 ∨ s = 1 ∨ s = 2) then (cl, false)
    else if s = 0 then claimLoop pid rest (i + 1) cl
    else
      let claims := (cl.lookup i).getD []
      if pid ∈ claims then (cl, false)
      else claimLoop pid rest (i + 1) (setAssoc cl i (claims ++ [pid]))

/-- The result tuple of `Game.step`: the post-call state (`self` after all
mutations) together with `(reward, terminated, truncated)`; the trailing
`info` dictionary is always `{}` and is omitted.  Rewards are exact
rationals. -/
structure StepRet where
  st : Game
  reward : ℚ
  terminated : Bool
  truncated : Bool
deriving Repr, DecidableEq

/-- The tail of the play branch of `step` (source lines 387-440): the win
check (`check_if_game_done` → reward 1000), then — when the per-turn
counter has reached `num_must_play` — the counter reset, the turn advance,
the draw loop refilling `current_player`'s hand (the player indexed by
`curIdx`, captured before `TURN` advanced), the endgame
`num_must_play = 1` rule, and finally the switch into the claim phase. -/
def afterPlay (g3 : Game) (curIdx : ℕ) (score : ℚ) : StepRet :=
  if g3.check_if_game_done then ⟨g3, 1000, true, false⟩
  else
    let g4 :=
      if g3.current_player_num_played = g3.num_must_play then
        let current := g3.players.getD curIdx default
        let res := drawLoop g3.deck current.hand g3.hand_size
        let g4a := { g3 with
          current_player_num_played := 0,
          TURN := (g3.TURN + 1) % g3.num_players,
          deck := res.1,
          players := g3.players.set curIdx { current with hand := res.2 } }
        if g4a.deck.length = 0 then { g4a with num_must_play := 1 } else g4a
      else g3
    ⟨{ g4 with phase := 1, claim_phase_turn := 0, claimed_piles := [] }, score, false, false⟩

/-- `count_piles` of the play branch: how many entries of the decoded
base-3 pile list are nonzero (`for p in range(len(pile_list)): if
pile_list[p] != 0: count_piles += 1`). -/
def countPiles (pile_list : List ℕ) : ℕ :=
  (pile_list.filter (fun s => s ≠ 0)).length

/-- `pile_num` of the play branch: the same loop keeps overwriting
`pile_num = p`, so it ends at the last index holding a nonzero digit
(the initial `0` stands for Python's unbound `pile_num`, which the
source only reads when `count_piles == 1`). -/
def pileNumOf (pile_list : List ℕ) : ℕ :=
  (List.range pile_list.length).foldl
    (fun acc p => if pile_list.getD p 0 ≠ 0 then p else acc) 0

/-- The `action_type == 0` (play) part of `step`, entered with the state
`g1` as already mutated by the phase bookkeeping and with `curIdx` the
index of `current_player`.  Source lines 309-312 and 328-440: the
no-legal-play check, the counter increment (before every validity
check), pile-selection decoding and validation, the card-index bound
check, the per-kind legality test, the in-place pile and hand update,
the basic-shape score, and the shared tail `afterPlay`. -/
def Game.playBranch (g1 : Game) (curIdx card_index pile_index : ℕ) : StepRet :=
  let current := g1.players.getD curIdx default
  if (determine_best_single_card g1.piles_up g1.piles_down current.hand []
        g1.claimed_piles).MIN_CARD = none then
    ⟨g1, -5, true, false⟩
  else
    let pile_len := g1.pile_config.1 + g1.pile_config.2
    let pile_list := base_3_conv pile_index pile_len
    let g2 := { g1 with current_player_num_played := g1.current_player_num_played + 1 }
    if countPiles pile_list ≠ 1 then ⟨g2, -10, true, true⟩
    else if card_index ≥ current.hand.length then ⟨g2, -10, true, true⟩
    else
      let card := current.hand.getD card_index 0
      let pile_num := pileNumOf pile_list
      if pile_num < g2.piles_up.length then
        let pile := g2.piles_up.getD pile_num 0
        if card = pile - 10 ∨ card > pile then
          let g3 := { g2 with
            piles_up := (g2.piles_up.erase pile) ++ [card],
            players := g2.players.set curIdx { current with hand := current.hand.erase card } }
          let score : ℚ := if card = pile - 10 then 1
            else 1 + -((pile : ℚ) - (card : ℚ)) ^ 2 / (2 * 98 ^ 2)
          afterPlay g3 curIdx score
        else ⟨g2, -10, true, true⟩
      else if pile_num - g2.piles_up.length < g2.piles_down.length then
        let pile := g2.piles_down.getD (pile_num - g2.piles_up.length) 0
        if card = pile + 10 ∨ card < pile then
          let g3 := { g2 with
            piles_down := (g2.piles_down.erase pile) ++ [card],
            players := g2.players.set curIdx { current with hand := current.hand.erase card } }
          let score : ℚ := if card = pile + 10 then 1
            else 1 + -((card : ℚ) - (pile : ℚ)) ^ 2 / (2 * 98 ^ 2)
          afterPlay g3 curIdx score
        else ⟨g2, -10, true, true⟩
      else ⟨g2, -10, true, true⟩

/-- The `action_type == 1` (claim) part of `step` (source lines
391-413 and 436-440): run the claim loop, bump `claim_phase_turn`, and
close the claim phase when the current player is the last one
(`current_player == self.players[-1]`, an identity test that holds
exactly when `curIdx` is the last index). -/
def Game.claimBranch (g1 : Game) (curIdx pile_index : ℕ) : StepRet :=
  let current := g1.players.getD curIdx default
  let pile_len := g1.pile_config.1 + g1.pile_config.2
  let pile_list := base_3_conv pile_index pile_len
  let res := claimLoop current.player_id pile_list 0 g1.claimed_piles
  if ¬res.2 then ⟨{ g1 with claimed_piles := res.1 }, -10, true, true⟩
  else
    let g2 := { g1 with claimed_piles := res.1, claim_phase_turn := g1.claim_phase_turn + 1 }
    if g2.phase = 1 ∧ curIdx = g2.players.length - 1 then
      ⟨{ g2 with phase := 0, claim_phase_turn := 0 }, 0, false, false⟩
    else ⟨g2, 0, false, false⟩

/-- `Game.step(action)` with `action = (action_type, card_index,
pile_index)` — the three components of the `MultiDiscrete([2, hand_size,
3**num_piles])` action.  Mirrors the source control flow: the two phase
guards, the `current_player` resolution (active player in the play
phase, `claim_phase_turn`-th player in the claim phase, with
`claim_phase_turn` zeroed on every play-phase call), then the play or
claim branch.  For `action_type ∉ {0, 1}` the source raises `NameError`
(the local `score` is never bound); that dead path is modelled as an
inert return and is never used by any theorem below. -/
def Game.step (g : Game) (action : ℕ × ℕ × ℕ) : StepRet :=
  let action_type := action.1
  let card_index := action.2.1
  let pile_index := action.2.2
  if g.phase = 0 ∧ action_type = 1 then ⟨g, -10, true, true⟩
  else if g.phase = 1 ∧ action_type = 0 then ⟨g, -10, true, true⟩
  else
    let curIdx := if g.phase = 0 then g.TURN else g.claim_phase_turn
    let g1 := if g.phase = 0 then { g with claim_phase_turn := 0 } else g
    if action_type = 0 then g1.playBranch curIdx card_index pile_index
    else if action_type = 1 then g1.claimBranch curIdx pile_index
    else ⟨g1, 0, false, false⟩

/-- `deck.pop()` repeated `k` times: the popped cards in pop order (last
element of the deck first) together with the remaining deck.  The source
would raise `IndexError` on an empty deck; during dealing the deck is
always long enough (hypotheses below enforce this). -/
def popN : List ℤ → ℕ → List ℤ × List ℤ
  | deck, 0 => ([], deck)
  | deck, k + 1 =>
    if h : deck = [] then ([], deck)
    else
      let rest := popN deck.dropLast k
      (deck.getLast h :: rest.1, rest.2)

/-- `Game.initialize_players`: deal `hand_size` cards off the end of the
deck to each of `n` players in turn, with increasing ids starting at `i`. -/
def initialize_players : ℕ → ℕ → List ℤ → ℕ → List Player × List ℤ
  | 0, _hs, deck, _i => ([], deck)
  | n + 1, hs, deck, i =>
    let res := popN deck hs
    let rest := initialize_players n hs res.2 (i + 1)
    (⟨i, res.1, []⟩ :: rest.1, rest.2)

/-- `Game.__init__` followed by `Game.reset`, with the outcome of
`random.shuffle` supplied as `shuffled_deck` (a permutation of
`[2, …, 99]`): counters zeroed, piles at their start values, players
dealt off the end of the deck. -/
def Game.reset (np hs nmp : ℕ) (pile_config : ℕ × ℕ) (pile_starts : ℤ × ℤ)
    (shuffled_deck : List ℤ) : Game :=
  let dealt := initialize_players np hs shuffled_deck 0
  { num_players := np
    hand_size := hs
    num_must_play := nmp
    num_must_play_init := nmp
    pile_config := pile_config
    pile_starts := pile_starts
    current_player_num_played := 0
    phase := 0
    TURN := 0
    claim_phase_turn := 0
    claimed_piles := []
    deck := dealt.2
    piles_up := List.replicate pile_config.1 pile_starts.1
    piles_down := List.replicate pile_config.2 pile_starts.2
    players := dealt.1 }

/-- The ascending-pile legality test used verbatim by `step`
(line 350): `card == (pile - 10) or card > pile`. -/
def is_legal_ascending (card top : ℤ) : Prop := card = top - 10 ∨ card > top

/-- The descending-pile legality test used verbatim by `step`
(line 369): `card == (pile + 10) or card < pile`. -/
def is_legal_descending (card top : ℤ) : Prop := card = top + 10 ∨ card < top

instance (c t : ℤ) : Decidable (is_legal_ascending c t) := by
  unfold is_legal_ascending; exact inferInstance

instance (c t : ℤ) : Decidable (is_legal_descending c t) := by
  unfold is_legal_descending; exact inferInstance

/-- The multiset union of the deck, all hands, and the cards currently on
top of any pile excluding the two sentinel start values 1 and 100 — the
quantity the card-conservation property speaks about. -/
def cardsInPlay (g : Game) : Multiset ℤ :=
  (g.deck : Multiset ℤ) + ((g.players.map Player.hand).flatten : Multiset ℤ) +
    (((g.piles_up ++ g.piles_down).filter (fun t => decide (t ≠ 1 ∧ t ≠ 100))) : Multiset ℤ)

/-- The full card range `{2, …, 99}` as a multiset. -/
def fullDeck : Multiset ℤ := ((List.range 98).map (fun i => (i : ℤ) + 2) : Multiset ℤ)

/-- Modelled from the spec (§4.1, "Best-single-card selection"): the
per-card cost the spec describes — the minimum over all piles of
(−10 for a shortcut, else the gap for a legal play, else the sentinel
101), with a single +0.1 adjustment when the card's shortcut partner has
been seen (`card − 10` in ascending context, `card + 10` in descending).
This is the comparison definition for the refinement claim about
`determine_best_single_card`; it is written from the spec's words, not
from the source. -/
def spec_card_cost (up_piles down_piles cards_seen : List ℤ) (card : ℤ) : ℚ :=
  let ascAdj : ℚ := if card - 10 ∈ cards_seen then 1/10 else 0
  let descAdj : ℚ := if card + 10 ∈ cards_seen then 1/10 else 0
  let ascCost : ℤ → ℚ := fun pile =>
    if card = pile - 10 then -10 + ascAdj
    else if card > pile then ((card - pile : ℤ) : ℚ) + ascAdj
    else 101
  let descCost : ℤ → ℚ := fun pile =>
    if card = pile + 10 then -10 + descAdj
    else if card < pile then ((pile - card : ℤ) : ℚ) + descAdj
    else 101
  ((up_piles.map ascCost) ++ (down_piles.map descCost)).foldl
    (fun acc c => if c < acc then c else acc) 101

/-! ## Helper lemmas about the control flow of `step` -/

/-- In the play phase, a play-type action goes through `playBranch` on the
state with `claim_phase_turn` zeroed, with the active player current. -/
theorem step_phase0_play (g : Game) (ci pi : ℕ) (h0 : g.phase = 0) :
    g.step (0, ci, pi) = Game.playBranch { g with claim_phase_turn := 0 } g.TURN ci pi := by
  unfold Game.step
  simp [h0]

/-- Shorthand: the total number of cards held in hands. -/
def handsTotal (g : Game) : ℕ := (g.players.map (fun p => p.hand.length)).sum

theorem foldl_hand_length (ps : List Player) (n : ℕ) :
    ps.foldl (fun acc p => acc + p.hand.length) n = n + (ps.map (fun p => p.hand.length)).sum := by
  induction ps generalizing n with
  | nil => simp
  | cons p ps ih => simp [ih]; omega

/-- `check_if_game_done` holds exactly when the hands hold zero cards in
total (the deck is not consulted). -/
theorem check_if_game_done_iff (g : Game) :
    g.check_if_game_done = true ↔ handsTotal g = 0 := by
  unfold Game.check_if_game_done handsTotal
  rw [foldl_hand_length]
  simp

/-- `afterPlay` on a state whose hands are exhausted: the win return. -/
theorem afterPlay_win (g3 : Game) (curIdx : ℕ) (score : ℚ) (h : handsTotal g3 = 0) :
    afterPlay g3 curIdx score = ⟨g3, 1000, true, false⟩ := by
  unfold afterPlay
  rw [if_pos ((check_if_game_done_iff g3).mpr h)]

/-- `afterPlay` mid-turn (hands not exhausted, counter below the required
plays): only the phase bookkeeping changes. -/
theorem afterPlay_midturn (g3 : Game) (curIdx : ℕ) (score : ℚ)
    (h : handsTotal g3 ≠ 0) (hc : g3.current_player_num_played ≠ g3.num_must_play) :
    afterPlay g3 curIdx score =
      ⟨{ g3 with phase := 1, claim_phase_turn := 0, claimed_piles := [] },
        score, false, false⟩ := by
  unfold afterPlay
  rw [if_neg (fun hh => h ((check_if_game_done_iff g3).mp hh)), if_neg hc]

/-- `afterPlay` at the end of a turn (hands not exhausted, counter equal to
the required plays): counter reset, turn advance, draw loop on the player
`curIdx` who just played, endgame rule, phase bookkeeping. -/
theorem afterPlay_turnEnd (g3 : Game) (curIdx : ℕ) (score : ℚ)
    (h : handsTotal g3 ≠ 0) (hc : g3.current_player_num_played = g3.num_must_play) :
    afterPlay g3 curIdx score =
      (let current := g3.players.getD curIdx default
       let res := drawLoop g3.deck current.hand g3.hand_size
       let g4a := { g3 with
          current_player_num_played := 0,
          TURN := (g3.TURN + 1) % g3.num_players,
          deck := res.1,
          players := g3.players.set curIdx { current with hand := res.2 } }
       let g4 := if g4a.deck.length = 0 then { g4a with num_must_play := 1 } else g4a
       ⟨{ g4 with phase := 1, claim_phase_turn := 0, claimed_piles := [] },
         score, false, false⟩) := by
  unfold afterPlay
  rw [if_neg (fun hh => h ((check_if_game_done_iff g3).mp hh)), if_pos hc]

/-- The draw loop in closed form: it moves the last
`min (hand_size − |hand|) |deck|` cards of the deck, in pop order, onto
the end of the hand. -/
theorem drawLoopFuel_eq (deck hand : List ℤ) (hs : ℕ) :
    drawLoopFuel deck.length deck hand hs =
      (deck.take (deck.length - min (hs - hand.length) deck.length),
       hand ++ (deck.drop (deck.length - min (hs - hand.length) deck.length)).reverse) := by
  induction deck using List.reverseRecOn generalizing hand with
  | nil => simp [drawLoopFuel]
  | append_singleton ds d ih =>
    have hlen : (ds ++ [d]).length = ds.length + 1 := by simp
    rw [hlen]
    by_cases hl : hand.length < hs
    · have hne : ds ++ [d] ≠ [] := by simp
      rw [drawLoopFuel, dif_pos ⟨hne, hl⟩]
      simp only [List.getLast_concat, List.dropLast_concat]
      rw [ih]
      have hK : ds.length + 1 - min (hs - hand.length) (ds.length + 1)
          = ds.length - min (hs - (hand ++ [d]).length) ds.length := by
        simp only [List.length_append, List.length_cons, List.length_nil]
        omega
      rw [hK]
      have hle : ds.length - min (hs - (hand ++ [d]).length) ds.length ≤ ds.length :=
        Nat.sub_le _ _
      rw [List.take_append_of_le_length hle, List.drop_append_of_le_length hle]
      simp
    · rw [drawLoopFuel, dif_neg (fun hh => hl hh.2)]
      have h0 : hs - hand.length = 0 := by omega
      simp [h0]

/-- The draw loop in closed form: it moves the last
`min (hand_size − |hand|) |deck|` cards of the deck, in pop order, onto
the end of the hand. -/
theorem drawLoop_eq (deck hand : List ℤ) (hs : ℕ) :
    drawLoop deck hand hs =
      (deck.take (deck.length - min (hs - hand.length) deck.length),
       hand ++ (deck.drop (deck.length - min (hs - hand.length) deck.length)).reverse) :=
  drawLoopFuel_eq deck hand hs

/-- The no-legal-play path of the play branch (source lines 309-312):
the heuristic finds no card, the call reports the loss outcome `-5`
without touching the counter. -/
theorem playBranch_noPlay (g1 : Game) (curIdx ci pi : ℕ)
    (hp : (determine_best_single_card g1.piles_up g1.piles_down
        (g1.players.getD curIdx default).hand [] g1.claimed_piles).MIN_CARD = none) :
    g1.playBranch curIdx ci pi = ⟨g1, -5, true, false⟩ := by
  simp only [Game.playBranch]
  rw [if_pos hp]

/-- Invalid pile selection (`count_piles != 1`): counter already bumped,
then the `-10` invalid return. -/
theorem playBranch_badCount (g1 : Game) (curIdx ci pi : ℕ)
    (hp : (determine_best_single_card g1.piles_up g1.piles_down
        (g1.players.getD curIdx default).hand [] g1.claimed_piles).MIN_CARD ≠ none)
    (hcnt : countPiles (base_3_conv pi (g1.pile_config.1 + g1.pile_config.2)) ≠ 1) :
    g1.playBranch curIdx ci pi =
      ⟨{ g1 with current_player_num_played := g1.current_player_num_played + 1 },
        -10, true, true⟩ := by
  simp only [Game.playBranch]
  rw [if_neg hp, if_pos hcnt]

/-- Out-of-range card index: counter already bumped, `-10` invalid
return. -/
theorem playBranch_badIndex (g1 : Game) (curIdx ci pi : ℕ)
    (hp : (determine_best_single_card g1.piles_up g1.piles_down
        (g1.players.getD curIdx default).hand [] g1.claimed_piles).MIN_CARD ≠ none)
    (hcnt : countPiles (base_3_conv pi (g1.pile_config.1 + g1.pile_config.2)) = 1)
    (hci : ci ≥ (g1.players.getD curIdx default).hand.length) :
    g1.playBranch curIdx ci pi =
      ⟨{ g1 with current_player_num_played := g1.current_player_num_played + 1 },
        -10, true, true⟩ := by
  simp only [Game.playBranch]
  rw [if_neg hp, if_neg (not_not_intro hcnt), if_pos hci]

/-- Illegal card on the selected ascending pile: `-10` invalid return. -/
theorem playBranch_upIllegal (g1 : Game) (curIdx ci pi : ℕ)
    (hp : (determine_best_single_card g1.piles_up g1.piles_down
        (g1.players.getD curIdx default).hand [] g1.claimed_piles).MIN_CARD ≠ none)
    (hcnt : countPiles (base_3_conv pi (g1.pile_config.1 + g1.pile_config.2)) = 1)
    (hci : ci < (g1.players.getD curIdx default).hand.length)
    (hpn : pileNumOf (base_3_conv pi (g1.pile_config.1 + g1.pile_config.2)) < g1.piles_up.length)
    (hleg : ¬((g1.players.getD curIdx default).hand.getD ci 0 =
          g1.piles_up.getD (pileNumOf (base_3_conv pi (g1.pile_config.1 + g1.pile_config.2))) 0 - 10 ∨
        (g1.players.getD curIdx default).hand.getD ci 0 >
          g1.piles_up.getD (pileNumOf (base_3_conv pi (g1.pile_config.1 + g1.pile_config.2))) 0)) :
    g1.playBranch curIdx ci pi =
      ⟨{ g1 with current_player_num_played := g1.current_player_num_played + 1 },
        -10, true, true⟩ := by
  simp only [Game.playBranch]
  rw [if_neg hp, if_neg (not_not_intro hcnt), if_neg (Nat.not_le.mpr hci), if_pos hpn,
    if_neg hleg]

/-- Illegal card on the selected descending pile: `-10` invalid return. -/
theorem playBranch_downIllegal (g1 : Game) (curIdx ci pi : ℕ)
    (hp : (determine_best_single_card g1.piles_up g1.piles_down
        (g1.players.getD curIdx default).hand [] g1.claimed_piles).MIN_CARD ≠ none)
    (hcnt : countPiles (base_3_conv pi (g1.pile_config.1 + g1.pile_config.2)) = 1)
    (hci : ci < (g1.players.getD curIdx default).hand.length)
    (hpn : ¬(pileNumOf (base_3_conv pi (g1.pile_config.1 + g1.pile_config.2)) < g1.piles_up.length))
    (hpd : pileNumOf (base_3_conv pi (g1.pile_config.1 + g1.pile_config.2)) - g1.piles_up.length
        < g1.piles_down.length)
    (hleg : ¬((g1.players.getD curIdx default).hand.getD ci 0 =
          g1.piles_down.getD (pileNumOf (base_3_conv pi (g1.pile_config.1 + g1.pile_config.2))
            - g1.piles_up.length) 0 + 10 ∨
        (g1.players.getD curIdx default).hand.getD ci 0 <
          g1.piles_down.getD (pileNumOf (base_3_conv pi (g1.pile_config.1 + g1.pile_config.2))
            - g1.piles_up.length) 0)) :
    g1.playBranch curIdx ci pi =
      ⟨{ g1 with current_player_num_played := g1.current_player_num_played + 1 },
        -10, true, true⟩ := by
  simp only [Game.playBranch]
  rw [if_neg hp, if_neg (not_not_intro hcnt), if_neg (Nat.not_le.mpr hci), if_neg hpn,
    if_pos hpd, if_neg hleg]

/-- Pile number outside both pile groups: `-10` invalid return. -/
theorem playBranch_badPile (g1 : Game) (curIdx ci pi : ℕ)
    (hp : (determine_best_single_card g1.piles_up g1.piles_down
        (g1.players.getD curIdx default).hand [] g1.claimed_piles).MIN_CARD ≠ none)
    (hcnt : countPiles (base_3_conv pi (g1.pile_config.1 + g1.pile_config.2)) = 1)
    (hci : ci < (g1.players.getD curIdx default).hand.length)
    (hpn : ¬(pileNumOf (base_3_conv pi (g1.pile_config.1 + g1.pile_config.2)) < g1.piles_up.length))
    (hpd : ¬(pileNumOf (base_3_conv pi (g1.pile_config.1 + g1.pile_config.2)) - g1.piles_up.length
        < g1.piles_down.length)) :
    g1.playBranch curIdx ci pi =
      ⟨{ g1 with current_player_num_played := g1.current_player_num_played + 1 },
        -10, true, true⟩ := by
  simp only [Game.playBranch]
  rw [if_neg hp, if_neg (not_not_intro hcnt), if_neg (Nat.not_le.mpr hci), if_neg hpn, if_neg hpd]

/-- A legal play on an ascending pile: the pile list drops the first
occurrence of the old top and appends the card, the hand drops the card,
and the shared tail `afterPlay` runs on the basic-shape score. -/
theorem playBranch_upLegal (g1 : Game) (curIdx ci pi : ℕ) (P : Player) (card top : ℤ)
    (hP : P = g1.players.getD curIdx default)
    (hcard : card = P.hand.getD ci 0)
    (htop : top = g1.piles_up.getD (pileNumOf (base_3_conv pi (g1.pile_config.1 + g1.pile_config.2))) 0)
    (hp : (determine_best_single_card g1.piles_up g1.piles_down P.hand [] g1.claimed_piles).MIN_CARD ≠ none)
    (hcnt : countPiles (base_3_conv pi (g1.pile_config.1 + g1.pile_config.2)) = 1)
    (hci : ci < P.hand.length)
    (hpn : pileNumOf (base_3_conv pi (g1.pile_config.1 + g1.pile_config.2)) < g1.piles_up.length)
    (hleg : card = top - 10 ∨ card > top) :
    g1.playBranch curIdx ci pi =
      afterPlay
        { g1 with
          current_player_num_played := g1.current_player_num_played + 1,
          piles_up := (g1.piles_up.erase top) ++ [card],
          players := g1.players.set curIdx { P with hand := P.hand.erase card } }
        curIdx
        (if card = top - 10 then 1 else 1 + -((top : ℚ) - (card : ℚ)) ^ 2 / (2 * 98 ^ 2)) := by
  subst hP hcard htop
  simp only [Game.playBranch]
  rw [if_neg hp, if_neg (not_not_intro hcnt), if_neg (Nat.not_le.mpr hci), if_pos hpn,
    if_pos hleg]

/-- A legal play on a descending pile: symmetric to the ascending case. -/
theorem playBranch_downLegal (g1 : Game) (curIdx ci pi : ℕ) (P : Player) (card top : ℤ)
    (hP : P = g1.players.getD curIdx default)
    (hcard : card = P.hand.getD ci 0)
    (htop : top = g1.piles_down.getD (pileNumOf (base_3_conv pi (g1.pile_config.1 + g1.pile_config.2))
        - g1.piles_up.length) 0)
    (hp : (determine_best_single_card g1.piles_up g1.piles_down P.hand [] g1.claimed_piles).MIN_CARD ≠ none)
    (hcnt : countPiles (base_3_conv pi (g1.pile_config.1 + g1.pile_config.2)) = 1)
    (hci : ci < P.hand.length)
    (hpn : ¬(pileNumOf (base_3_conv pi (g1.pile_config.1 + g1.pile_config.2)) < g1.piles_up.length))
    (hpd : pileNumOf (base_3_conv pi (g1.pile_config.1 + g1.pile_config.2)) - g1.piles_up.length
        < g1.piles_down.length)
    (hleg : card = top + 10 ∨ card < top) :
    g1.playBranch curIdx ci pi =
      afterPlay
        { g1 with
          current_player_num_played := g1.current_player_num_played + 1,
          piles_down := (g1.piles_down.erase top) ++ [card],
          players := g1.players.set curIdx { P with hand := P.hand.erase card } }
        curIdx
        (if card = top + 10 then 1 else 1 + -((card : ℚ) - (top : ℚ)) ^ 2 / (2 * 98 ^ 2)) := by
  subst hP hcard htop
  simp only [Game.playBranch]
  rw [if_neg hp, if_neg (not_not_intro hcnt), if_neg (Nat.not_le.mpr hci), if_neg hpn,
    if_pos hpd, if_pos hleg]

theorem sum_hand_set (ps : List Player) (i : ℕ) (P' : Player) (hi : i < ps.length) :
    ((ps.set i P').map (fun p => p.hand.length)).sum + (ps.getD i default).hand.length
      = (ps.map (fun p => p.hand.length)).sum + P'.hand.length := by
  induction ps generalizing i with
  | nil => simp at hi
  | cons p ps ih =>
    cases i with
    | zero => simp [List.set]; omega
    | succ n =>
      have hn : n < ps.length := by simpa using hi
      have := ih n hn
      simp only [List.set, List.map_cons, List.sum_cons, List.getD_cons_succ]
      omega

theorem hand_le_sum (ps : List Player) (i : ℕ) (hi : i < ps.length) :
    (ps.getD i default).hand.length ≤ (ps.map (fun p => p.hand.length)).sum := by
  induction ps generalizing i with
  | nil => simp at hi
  | cons p ps ih =>
    cases i with
    | zero => simp [List.getD_cons_zero]
    | succ n =>
      have hn : n < ps.length := by simpa using hi
      have := ih n hn
      simp only [List.getD_cons_succ, List.map_cons, List.sum_cons]
      omega

/-- `afterPlay` never truncates. -/
theorem afterPlay_truncated (g3 : Game) (curIdx : ℕ) (score : ℚ) :
    (afterPlay g3 curIdx score).truncated = false := by
  unfold afterPlay
  split <;> rfl

/-- When hands remain after the play, `afterPlay` does not terminate and
returns the play score unchanged. -/
theorem afterPlay_not_done (g3 : Game) (curIdx : ℕ) (score : ℚ) (h : handsTotal g3 ≠ 0) :
    (afterPlay g3 curIdx score).terminated = false ∧ (afterPlay g3 curIdx score).reward = score := by
  unfold afterPlay
  rw [if_neg (fun hh => h ((check_if_game_done_iff g3).mp hh))]
  exact ⟨rfl, rfl⟩

/-! ## Concrete states used by witnesses and counterexamples -/

/-- One player holding a single card with a nonempty deck: playing the
card empties every hand while the deck still holds a card. -/
def gameC1 : Game :=
  { num_players := 1, hand_size := 1, num_must_play := 2, num_must_play_init := 2,
    pile_config := (2, 2), pile_starts := (1, 100), current_player_num_played := 0, phase := 0,
    TURN := 0, claim_phase_turn := 0, claimed_piles := [], deck := [50],
    piles_up := [1, 1], piles_down := [100, 100], players := [⟨0, [3], []⟩] }

/-- One player holding two cards: a play leaves a card behind, so no win
triggers. -/
def gameC1w : Game :=
  { num_players := 1, hand_size := 2, num_must_play := 2, num_must_play_init := 2,
    pile_config := (2, 2), pile_starts := (1, 100), current_player_num_played := 0, phase := 0,
    TURN := 0, claim_phase_turn := 0, claimed_piles := [], deck := [],
    piles_up := [1, 1], piles_down := [100, 100], players := [⟨0, [3, 7], []⟩] }

/-! ## C1 -/

/-- Auxiliary: the outcome of `afterPlay` is the win report exactly when
the post-play hands are empty. -/
theorem win_iff_aux (g3 : Game) (curIdx : ℕ) (score : ℚ) (n : ℕ)
    (hsum : handsTotal g3 + 1 = n) :
    (((afterPlay g3 curIdx score).reward = 1000 ∧ (afterPlay g3 curIdx score).terminated = true)
      ↔ n = 1) := by
  constructor
  · rintro ⟨_, hterm⟩
    by_contra hne
    have hnz : handsTotal g3 ≠ 0 := by omega
    rw [(afterPlay_not_done _ _ _ hnz).1] at hterm
    exact Bool.false_ne_true hterm
  · intro h1
    have hz : handsTotal g3 = 0 := by omega
    rw [afterPlay_win _ _ _ hz]
    exact ⟨rfl, rfl⟩

/-- C1 (amended): on a valid legal play, `step` reports the terminal win
outcome — reward 1000 (overriding the per-play score) with
`terminated = true` — exactly when the play empties the last card out of
the players' hands (`handsTotal g = 1` before the play).  The deck is
not consulted by the win check. -/
theorem C1_win_iff_hands_emptied (g : Game) (ci pi : ℕ) (h0 : g.phase = 0)
    (hp : (determine_best_single_card g.piles_up g.piles_down
        (g.players.getD g.TURN default).hand [] g.claimed_piles).MIN_CARD ≠ none)
    (hcnt : countPiles (base_3_conv pi (g.pile_config.1 + g.pile_config.2)) = 1)
    (hci : ci < (g.players.getD g.TURN default).hand.length) :
    (pileNumOf (base_3_conv pi (g.pile_config.1 + g.pile_config.2)) < g.piles_up.length →
      is_legal_ascending ((g.players.getD g.TURN default).hand.getD ci 0)
        (g.piles_up.getD (pileNumOf (base_3_conv pi (g.pile_config.1 + g.pile_config.2))) 0) →
      (((g.step (0, ci, pi)).reward = 1000 ∧ (g.step (0, ci, pi)).terminated = true)
        ↔ handsTotal g = 1)) ∧
    (¬(pileNumOf (base_3_conv pi (g.pile_config.1 + g.pile_config.2)) < g.piles_up.length) →
      pileNumOf (base_3_conv pi (g.pile_config.1 + g.pile_config.2)) - g.piles_up.length
        < g.piles_down.length →
      is_legal_descending ((g.players.getD g.TURN default).hand.getD ci 0)
        (g.piles_down.getD (pileNumOf (base_3_conv pi (g.pile_config.1 + g.pile_config.2))
          - g.piles_up.length) 0) →
      (((g.step (0, ci, pi)).reward = 1000 ∧ (g.step (0, ci, pi)).terminated = true)
        ↔ handsTotal g = 1)) := by
  have hcur : g.TURN < g.players.length := by
    by_contra hge
    rw [List.getD_eq_default _ _ (Nat.le_of_not_lt hge)] at hci
    simp [default] at hci
  have hmem : (g.players.getD g.TURN default).hand.getD ci 0
      ∈ (g.players.getD g.TURN default).hand := by
    rw [List.getD_eq_getElem _ _ hci]
    exact List.getElem_mem hci
  have hlen1 : 1 ≤ (g.players.getD g.TURN default).hand.length := by omega
  have hsum1 : 1 ≤ handsTotal g :=
    le_trans hlen1 (hand_le_sum g.players g.TURN hcur)
  have herase : ((g.players.getD g.TURN default).hand.erase
      ((g.players.getD g.TURN default).hand.getD ci 0)).length
      = (g.players.getD g.TURN default).hand.length - 1 :=
    List.length_erase_of_mem hmem
  have h3 := sum_hand_set g.players g.TURN
    { g.players.getD g.TURN default with
      hand := (g.players.getD g.TURN default).hand.erase
        ((g.players.getD g.TURN default).hand.getD ci 0) } hcur
  constructor
  · intro hpn hleg
    rw [step_phase0_play g ci pi h0,
      playBranch_upLegal { g with claim_phase_turn := 0 } g.TURN ci pi _ _ _ rfl rfl rfl
        hp hcnt hci hpn hleg]
    refine win_iff_aux _ _ _ _ ?_
    simp only [handsTotal] at h3 hsum1 ⊢
    omega
  · intro hpn hpd hleg
    rw [step_phase0_play g ci pi h0,
      playBranch_downLegal { g with claim_phase_turn := 0 } g.TURN ci pi _ _ _ rfl rfl rfl
        hp hcnt hci hpn hpd hleg]
    refine win_iff_aux _ _ _ _ ?_
    simp only [handsTotal] at h3 hsum1 ⊢
    omega

/-- C1 witness: a concrete legal play that does not empty the hands is
not reported as a win. -/
theorem C1_witness :
    ¬((gameC1w.step (0, 0, 27)).reward = 1000 ∧ (gameC1w.step (0, 0, 27)).terminated = true) := by
  have h := (C1_win_iff_hands_emptied gameC1w 0 27 rfl (by decide) (by decide) (by decide)).1
    (by decide) (by decide)
  intro hc
  have := h.mp hc
  simp [gameC1w, handsTotal] at this

/-- C1 counterexample: a legal play that empties every hand while the
deck still holds a card is reported as the win outcome (reward 1000,
terminated), contradicting the claim that no win is reported while the
deck is nonempty. -/
theorem C1_counterexample :
    (gameC1.step (0, 0, 27)).reward = 1000 ∧ (gameC1.step (0, 0, 27)).terminated = true ∧
      (gameC1.step (0, 0, 27)).st.deck = [50] ∧ gameC1.deck ≠ [] := by decide

/-! ## C2 -/

/-- C2: legality is the pure function of card and pile top given by
`is_legal_ascending` / `is_legal_descending` (card = top ∓ 10 or
beyond the top in the pile's direction), and on a valid play request
`step` accepts the play (no invalid truncation) exactly when that rule
holds for the chosen card and the chosen pile's current top. -/
theorem C2_step_uses_legality_rule (g : Game) (ci pi : ℕ) (h0 : g.phase = 0)
    (hp : (determine_best_single_card g.piles_up g.piles_down
        (g.players.getD g.TURN default).hand [] g.claimed_piles).MIN_CARD ≠ none)
    (hcnt : countPiles (base_3_conv pi (g.pile_config.1 + g.pile_config.2)) = 1)
    (hci : ci < (g.players.getD g.TURN default).hand.length) :
    (pileNumOf (base_3_conv pi (g.pile_config.1 + g.pile_config.2)) < g.piles_up.length →
      ((g.step (0, ci, pi)).truncated = false ↔
        is_legal_ascending ((g.players.getD g.TURN default).hand.getD ci 0)
          (g.piles_up.getD (pileNumOf (base_3_conv pi (g.pile_config.1 + g.pile_config.2))) 0))) ∧
    (¬(pileNumOf (base_3_conv pi (g.pile_config.1 + g.pile_config.2)) < g.piles_up.length) →
      pileNumOf (base_3_conv pi (g.pile_config.1 + g.pile_config.2)) - g.piles_up.length
        < g.piles_down.length →
      ((g.step (0, ci, pi)).truncated = false ↔
        is_legal_descending ((g.players.getD g.TURN default).hand.getD ci 0)
          (g.piles_down.getD (pileNumOf (base_3_conv pi (g.pile_config.1 + g.pile_config.2))
            - g.piles_up.length) 0))) := by
  constructor
  · intro hpn
    constructor
    · intro htr
      by_contra hleg
      rw [step_phase0_play g ci pi h0,
        playBranch_upIllegal { g with claim_phase_turn := 0 } g.TURN ci pi hp hcnt hci hpn
          (fun hor => hleg hor)] at htr
      exact absurd htr (by simp)
    · intro hleg
      rw [step_phase0_play g ci pi h0,
        playBranch_upLegal { g with claim_phase_turn := 0 } g.TURN ci pi _ _ _ rfl rfl rfl
          hp hcnt hci hpn hleg]
      exact afterPlay_truncated _ _ _
  · intro hpn hpd
    constructor
    · intro htr
      by_contra hleg
      rw [step_phase0_play g ci pi h0,
        playBranch_downIllegal { g with claim_phase_turn := 0 } g.TURN ci pi hp hcnt hci hpn hpd
          (fun hor => hleg hor)] at htr
      exact absurd htr (by simp)
    · intro hleg
      rw [step_phase0_play g ci pi h0,
        playBranch_downLegal { g with claim_phase_turn := 0 } g.TURN ci pi _ _ _ rfl rfl rfl
          hp hcnt hci hpn hpd hleg]
      exact afterPlay_truncated _ _ _

/-- C2 witness: on a concrete state, the acceptance of a play on the first
ascending pile is equivalent to the ascending legality rule. -/
theorem C2_witness :
    (gameC1w.step (0, 0, 27)).truncated = false ↔
      is_legal_ascending ((gameC1w.players.getD gameC1w.TURN default).hand.getD 0 0)
        (gameC1w.piles_up.getD
          (pileNumOf (base_3_conv 27 (gameC1w.pile_config.1 + gameC1w.pile_config.2))) 0) :=
  (C2_step_uses_legality_rule gameC1w 0 27 rfl (by decide) (by decide) (by decide)).1 (by decide)

/-! ## C3 -/

/-- C3: in the basic scoring shape, a legal shortcut play scores exactly
1, and any other legal play scores `1 − gap²/(2·98²)` with
`gap = |top − card|`, a value that is strictly positive and strictly
below the shortcut score 1 (hence in (0,1]). -/
theorem C3_basic_scores (g : Game) (ci pi : ℕ) (h0 : g.phase = 0)
    (hp : (determine_best_single_card g.piles_up g.piles_down
        (g.players.getD g.TURN default).hand [] g.claimed_piles).MIN_CARD ≠ none)
    (hcnt : countPiles (base_3_conv pi (g.pile_config.1 + g.pile_config.2)) = 1)
    (hci : ci < (g.players.getD g.TURN default).hand.length)
    (hnw : 2 ≤ handsTotal g) :
    (∀ card top : ℤ, card = (g.players.getD g.TURN default).hand.getD ci 0 →
      top = g.piles_up.getD (pileNumOf (base_3_conv pi (g.pile_config.1 + g.pile_config.2))) 0 →
      pileNumOf (base_3_conv pi (g.pile_config.1 + g.pile_config.2)) < g.piles_up.length →
      is_legal_ascending card top →
      2 ≤ card → card ≤ 99 → 1 ≤ top → top ≤ 100 →
      ((card = top - 10 → (g.step (0, ci, pi)).reward = 1) ∧
       (card ≠ top - 10 →
        (g.step (0, ci, pi)).reward = 1 - ((top : ℚ) - (card : ℚ)) ^ 2 / (2 * 98 ^ 2) ∧
        0 < (g.step (0, ci, pi)).reward ∧ (g.step (0, ci, pi)).reward < 1))) ∧
    (∀ card top : ℤ, card = (g.players.getD g.TURN default).hand.getD ci 0 →
      top = g.piles_down.getD (pileNumOf (base_3_conv pi (g.pile_config.1 + g.pile_config.2))
        - g.piles_up.length) 0 →
      ¬(pileNumOf (base_3_conv pi (g.pile_config.1 + g.pile_config.2)) < g.piles_up.length) →
      pileNumOf (base_3_conv pi (g.pile_config.1 + g.pile_config.2)) - g.piles_up.length
        < g.piles_down.length →
      is_legal_descending card top →
      2 ≤ card → card ≤ 99 → 1 ≤ top → top ≤ 100 →
      ((card = top + 10 → (g.step (0, ci, pi)).reward = 1) ∧
       (card ≠ top + 10 →
        (g.step (0, ci, pi)).reward = 1 - ((top : ℚ) - (card : ℚ)) ^ 2 / (2 * 98 ^ 2) ∧
        0 < (g.step (0, ci, pi)).reward ∧ (g.step (0, ci, pi)).reward < 1))) := by
  have hcur : g.TURN < g.players.length := by
    by_contra hge
    rw [List.getD_eq_default _ _ (Nat.le_of_not_lt hge)] at hci
    simp [default] at hci
  have hmem : (g.players.getD g.TURN default).hand.getD ci 0
      ∈ (g.players.getD g.TURN default).hand := by
    rw [List.getD_eq_getElem _ _ hci]
    exact List.getElem_mem hci
  have herase : ((g.players.getD g.TURN default).hand.erase
      ((g.players.getD g.TURN default).hand.getD ci 0)).length
      = (g.players.getD g.TURN default).hand.length - 1 :=
    List.length_erase_of_mem hmem
  have h3 := sum_hand_set g.players g.TURN
    { g.players.getD g.TURN default with
      hand := (g.players.getD g.TURN default).hand.erase
        ((g.players.getD g.TURN default).hand.getD ci 0) } hcur
  have hlen1 : 1 ≤ (g.players.getD g.TURN default).hand.length := by omega
  constructor
  · rintro card top rfl rfl hpn hleg h2c h99 h1t h100
    rw [step_phase0_play g ci pi h0,
      playBranch_upLegal { g with claim_phase_turn := 0 } g.TURN ci pi _ _ _ rfl rfl rfl
        hp hcnt hci hpn hleg]
    have hnz : handsTotal
        { g with
          claim_phase_turn := 0,
          current_player_num_played := g.current_player_num_played + 1,
          piles_up := (g.piles_up.erase (g.piles_up.getD (pileNumOf
            (base_3_conv pi (g.pile_config.1 + g.pile_config.2))) 0))
            ++ [(g.players.getD g.TURN default).hand.getD ci 0],
          players := g.players.set g.TURN { g.players.getD g.TURN default with
            hand := (g.players.getD g.TURN default).hand.erase
              ((g.players.getD g.TURN default).hand.getD ci 0) } } ≠ 0 := by
      simp only [handsTotal] at h3 hnw ⊢
      omega
    rw [(afterPlay_not_done _ _ _ hnz).2]
    set card := (g.players.getD g.TURN default).hand.getD ci 0 with hcard
    set top := g.piles_up.getD (pileNumOf (base_3_conv pi (g.pile_config.1 + g.pile_config.2))) 0
      with htop
    constructor
    · intro hsc
      rw [if_pos hsc]
    · intro hsc
      rw [if_neg hsc]
      have hgt : top < card := by
        rcases hleg with h | h
        · exact absurd h hsc
        · exact h
      have hq1 : (1 : ℚ) ≤ (card : ℚ) - (top : ℚ) := by
        have : top + 1 ≤ card := by omega
        have : ((top : ℚ) + 1) ≤ (card : ℚ) := by exact_mod_cast this
        linarith
      have hq98 : (card : ℚ) - (top : ℚ) ≤ 98 := by
        have : card - top ≤ 98 := by omega
        have : ((card - top : ℤ) : ℚ) ≤ 98 := by exact_mod_cast this
        push_cast at this
        linarith
      have hsq : ((card : ℚ) - (top : ℚ)) ^ 2 ≤ 9604 := by nlinarith
      have hsqpos : 0 < ((card : ℚ) - (top : ℚ)) ^ 2 := by nlinarith
      have heq : (1 : ℚ) + -((top : ℚ) - (card : ℚ)) ^ 2 / (2 * 98 ^ 2)
          = 1 - ((top : ℚ) - (card : ℚ)) ^ 2 / (2 * 98 ^ 2) := by ring
      have hflip : ((top : ℚ) - (card : ℚ)) ^ 2 = ((card : ℚ) - (top : ℚ)) ^ 2 := by ring
      refine ⟨by rw [heq], ?_, ?_⟩
      · rw [heq, hflip]
        have : ((card : ℚ) - (top : ℚ)) ^ 2 / (2 * 98 ^ 2) ≤ 9604 / (2 * 98 ^ 2) := by
          apply div_le_div_of_nonneg_right hsq
          norm_num
        norm_num at this ⊢
        linarith
      · rw [heq, hflip]
        have : 0 < ((card : ℚ) - (top : ℚ)) ^ 2 / (2 * 98 ^ 2) := by positivity
        linarith
  · rintro card top rfl rfl hpn hpd hleg h2c h99 h1t h100
    rw [step_phase0_play g ci pi h0,
      playBranch_downLegal { g with claim_phase_turn := 0 } g.TURN ci pi _ _ _ rfl rfl rfl
        hp hcnt hci hpn hpd hleg]
    have hnz : handsTotal
        { g with
          claim_phase_turn := 0,
          current_player_num_played := g.current_player_num_played + 1,
          piles_down := (g.piles_down.erase (g.piles_down.getD (pileNumOf
            (base_3_conv pi (g.pile_config.1 + g.pile_config.2)) - g.piles_up.length) 0))
            ++ [(g.players.getD g.TURN default).hand.getD ci 0],
          players := g.players.set g.TURN { g.players.getD g.TURN default with
            hand := (g.players.getD g.TURN default).hand.erase
              ((g.players.getD g.TURN default).hand.getD ci 0) } } ≠ 0 := by
      simp only [handsTotal] at h3 hnw ⊢
      omega
    rw [(afterPlay_not_done _ _ _ hnz).2]
    set card := (g.players.getD g.TURN default).hand.getD ci 0 with hcard
    set top := g.piles_down.getD (pileNumOf (base_3_conv pi (g.pile_config.1 + g.pile_config.2))
      - g.piles_up.length) 0 with htop
    constructor
    · intro hsc
      rw [if_pos hsc]
    · intro hsc
      rw [if_neg hsc]
      have hgt : card < top := by
        rcases hleg with h | h
        · exact absurd h hsc
        · exact h
      have hq1 : (1 : ℚ) ≤ (top : ℚ) - (card : ℚ) := by
        have : card + 1 ≤ top := by omega
        have : ((card : ℚ) + 1) ≤ (top : ℚ) := by exact_mod_cast this
        linarith
      have hq98 : (top : ℚ) - (card : ℚ) ≤ 98 := by
        have : top - card ≤ 98 := by omega
        have : ((top - card : ℤ) : ℚ) ≤ 98 := by exact_mod_cast this
        push_cast at this
        linarith
      have hsq : ((top : ℚ) - (card : ℚ)) ^ 2 ≤ 9604 := by nlinarith
      have heq : (1 : ℚ) + -((card : ℚ) - (top : ℚ)) ^ 2 / (2 * 98 ^ 2)
          = 1 - ((top : ℚ) - (card : ℚ)) ^ 2 / (2 * 98 ^ 2) := by ring
      refine ⟨by rw [heq], ?_, ?_⟩
      · rw [heq]
        have : ((top : ℚ) - (card : ℚ)) ^ 2 / (2 * 98 ^ 2) ≤ 9604 / (2 * 98 ^ 2) := by
          apply div_le_div_of_nonneg_right hsq
          norm_num
        norm_num at this ⊢
        linarith
      · rw [heq]
        have : 0 < ((top : ℚ) - (card : ℚ)) ^ 2 / (2 * 98 ^ 2) := by positivity
        linarith

/-- C3 witness: a concrete non-shortcut legal play (card 3 on an
ascending pile at 1) scores strictly between 0 and 1. -/
theorem C3_witness :
    0 < (gameC1w.step (0, 0, 27)).reward ∧ (gameC1w.step (0, 0, 27)).reward < 1 := by
  have h := ((C3_basic_scores gameC1w 0 27 rfl (by decide) (by decide) (by decide)
      (by decide)).1 3 1 (by decide) (by decide) (by decide) (by decide) (by decide)
      (by decide) (by decide) (by decide)).2 (by decide)
  exact ⟨h.2.1, h.2.2⟩

/-! ## C4 helpers -/

theorem drawLoop_nil (hand : List ℤ) (hs : ℕ) : drawLoop [] hand hs = ([], hand) := rfl

theorem getD_set_self {α : Type} [Inhabited α] (l : List α) (i : ℕ) (x : α)
    (h : i < l.length) : (l.set i x).getD i default = x := by
  induction l generalizing i with
  | nil => simp at h
  | cons a l ih =>
    cases i with
    | zero => simp [List.set]
    | succ n => simpa [List.set] using ih n (by simpa using h)

theorem getD_set_ne {α : Type} [Inhabited α] (l : List α) (i j : ℕ) (x : α)
    (h : j ≠ i) : (l.set i x).getD j default = l.getD j default := by
  induction l generalizing i j with
  | nil => simp [List.set]
  | cons a l ih =>
    cases i with
    | zero =>
      cases j with
      | zero => exact absurd rfl h
      | succ m => simp [List.set]
    | succ n =>
      cases j with
      | zero => simp [List.set]
      | succ m => simpa [List.set] using ih n m (fun hh => h (by omega))

/-- Once the deck is empty and the required plays have dropped to 1, any
`step` keeps the deck empty and the requirement at 1. -/
theorem afterPlay_endgame (g3 : Game) (c : ℕ) (s : ℚ) (hd : g3.deck = [])
    (hn : g3.num_must_play = 1) :
    (afterPlay g3 c s).st.deck = [] ∧ (afterPlay g3 c s).st.num_must_play = 1 := by
  unfold afterPlay
  split
  · exact ⟨hd, hn⟩
  · split
    · simp [hd, drawLoop_nil, hn]
    · exact ⟨hd, hn⟩

theorem playBranch_endgame (g1 : Game) (c ci pi : ℕ) (hd : g1.deck = [])
    (hn : g1.num_must_play = 1) :
    (g1.playBranch c ci pi).st.deck = [] ∧ (g1.playBranch c ci pi).st.num_must_play = 1 := by
  simp only [Game.playBranch]
  split
  · exact ⟨hd, hn⟩
  · split
    · exact ⟨hd, hn⟩
    · split
      · exact ⟨hd, hn⟩
      · split
        · split
          · exact afterPlay_endgame _ _ _ hd hn
          · exact ⟨hd, hn⟩
        · split
          · split
            · exact afterPlay_endgame _ _ _ hd hn
            · exact ⟨hd, hn⟩
          · exact ⟨hd, hn⟩

theorem claimBranch_endgame (g1 : Game) (c pi : ℕ) (hd : g1.deck = [])
    (hn : g1.num_must_play = 1) :
    (g1.claimBranch c pi).st.deck = [] ∧ (g1.claimBranch c pi).st.num_must_play = 1 := by
  simp only [Game.claimBranch]
  split
  · exact ⟨hd, hn⟩
  · split
    · exact ⟨hd, hn⟩
    · exact ⟨hd, hn⟩

theorem step_preserves_endgame (h : Game) (a : ℕ × ℕ × ℕ) (hd : h.deck = [])
    (hn : h.num_must_play = 1) :
    (h.step a).st.deck = [] ∧ (h.step a).st.num_must_play = 1 := by
  simp only [Game.step]
  split
  · exact ⟨hd, hn⟩
  · split
    · exact ⟨hd, hn⟩
    · split
      · apply playBranch_endgame <;> split <;> simp [hd, hn]
      · split
        · apply claimBranch_endgame <;> split <;> simp [hd, hn]
        · split <;> exact ⟨hd, hn⟩

/-! ## C4 -/

/-- The amended turn-advancement contract: after a turn-completing legal
play of `card`, the counter is reset, the active index advances by one
modulo the player count, and the hand of the player who just played
(still indexed by the OLD `TURN`) is refilled from the end of the deck up
to `hand_size`, stopping early if the deck empties; `num_must_play`
drops to 1 exactly when the deck is empty afterwards. -/
def turnEndSpec (g : Game) (card : ℤ) (st : Game) : Prop :=
  let handAfter := (g.players.getD g.TURN default).hand.erase card
  let k := min (g.hand_size - handAfter.length) g.deck.length
  st.current_player_num_played = 0 ∧
  st.TURN = (g.TURN + 1) % g.num_players ∧
  st.deck = g.deck.take (g.deck.length - k) ∧
  (st.players.getD g.TURN default).hand
    = handAfter ++ (g.deck.drop (g.deck.length - k)).reverse ∧
  (∀ j, j ≠ g.TURN → st.players.getD j default = g.players.getD j default) ∧
  st.num_must_play = (if g.deck.length - k = 0 then 1 else g.num_must_play) ∧
  st.phase = 1

/-- `afterPlay` at the end of a turn, in closed form over an abstract
post-play state `g3`: counter reset, turn advance, the player at
`curIdx` refilled with the last `min (hand_size − |hand|) |deck|` deck
cards in pop order, every other player untouched, the deck cut to its
remaining prefix, and the endgame drop of `num_must_play` exactly when
the remaining deck is empty. -/
theorem afterPlay_turnEnd_full (g3 : Game) (curIdx : ℕ) (score : ℚ)
    (hcur : curIdx < g3.players.length)
    (hnd : handsTotal g3 ≠ 0)
    (hc : g3.current_player_num_played = g3.num_must_play) :
    (afterPlay g3 curIdx score).st.current_player_num_played = 0 ∧
    (afterPlay g3 curIdx score).st.TURN = (g3.TURN + 1) % g3.num_players ∧
    (afterPlay g3 curIdx score).st.deck = g3.deck.take (g3.deck.length
      - min (g3.hand_size - (g3.players.getD curIdx default).hand.length) g3.deck.length) ∧
    ((afterPlay g3 curIdx score).st.players.getD curIdx default).hand
      = (g3.players.getD curIdx default).hand ++ (g3.deck.drop (g3.deck.length
        - min (g3.hand_size - (g3.players.getD curIdx default).hand.length)
            g3.deck.length)).reverse ∧
    (∀ j, j ≠ curIdx →
      (afterPlay g3 curIdx score).st.players.getD j default = g3.players.getD j default) ∧
    (afterPlay g3 curIdx score).st.num_must_play
      = (if g3.deck.length - min (g3.hand_size - (g3.players.getD curIdx default).hand.length)
            g3.deck.length = 0 then 1 else g3.num_must_play) ∧
    (afterPlay g3 curIdx score).st.phase = 1 := by
  rw [afterPlay_turnEnd _ _ _ hnd hc]
  simp only []
  rw [drawLoop_eq, List.length_take, Nat.min_eq_left (Nat.sub_le _ _)]
  split <;>
  · refine ⟨by first | rfl | trivial, by first | rfl | trivial, by first | rfl | trivial,
      ?_, ?_, by first | rfl | trivial, by first | rfl | trivial⟩
    · rw [getD_set_self _ curIdx _ hcur]
    · intro j hj
      rw [getD_set_ne _ curIdx j _ hj]

/-- C4 (amended): when a legal play brings the per-turn counter up to
`num_must_play` (and the game is not won by it), `step` resets the
counter, advances the active index by one modulo the player count, and
replenishes the hand of the player who JUST played — not the new active
player — from the deck up to hand size, stopping early if the deck
empties; if the deck is empty after replenishment, `num_must_play`
drops to 1, and once the deck is empty with `num_must_play = 1` every
subsequent `step` keeps the deck empty and the requirement at 1. -/
theorem C4_turn_advancement (g : Game) (ci pi : ℕ) (h0 : g.phase = 0)
    (hp : (determine_best_single_card g.piles_up g.piles_down
        (g.players.getD g.TURN default).hand [] g.claimed_piles).MIN_CARD ≠ none)
    (hcnt : countPiles (base_3_conv pi (g.pile_config.1 + g.pile_config.2)) = 1)
    (hci : ci < (g.players.getD g.TURN default).hand.length)
    (hreach : g.current_player_num_played + 1 = g.num_must_play)
    (hnw : 2 ≤ handsTotal g) :
    (pileNumOf (base_3_conv pi (g.pile_config.1 + g.pile_config.2)) < g.piles_up.length →
      is_legal_ascending ((g.players.getD g.TURN default).hand.getD ci 0)
        (g.piles_up.getD (pileNumOf (base_3_conv pi (g.pile_config.1 + g.pile_config.2))) 0) →
      turnEndSpec g ((g.players.getD g.TURN default).hand.getD ci 0) (g.step (0, ci, pi)).st) ∧
    (¬(pileNumOf (base_3_conv pi (g.pile_config.1 + g.pile_config.2)) < g.piles_up.length) →
      pileNumOf (base_3_conv pi (g.pile_config.1 + g.pile_config.2)) - g.piles_up.length
        < g.piles_down.length →
      is_legal_descending ((g.players.getD g.TURN default).hand.getD ci 0)
        (g.piles_down.getD (pileNumOf (base_3_conv pi (g.pile_config.1 + g.pile_config.2))
          - g.piles_up.length) 0) →
      turnEndSpec g ((g.players.getD g.TURN default).hand.getD ci 0) (g.step (0, ci, pi)).st) ∧
    (∀ (h : Game) (a : ℕ × ℕ × ℕ), h.deck = [] → h.num_must_play = 1 →
      (h.step a).st.deck = [] ∧ (h.step a).st.num_must_play = 1) := by
  have hcur : g.TURN < g.players.length := by
    by_contra hge
    rw [List.getD_eq_default _ _ (Nat.le_of_not_lt hge)] at hci
    simp [default] at hci
  have hmem : (g.players.getD g.TURN default).hand.getD ci 0
      ∈ (g.players.getD g.TURN default).hand := by
    rw [List.getD_eq_getElem _ _ hci]
    exact List.getElem_mem hci
  have herase : ((g.players.getD g.TURN default).hand.erase
      ((g.players.getD g.TURN default).hand.getD ci 0)).length
      = (g.players.getD g.TURN default).hand.length - 1 :=
    List.length_erase_of_mem hmem
  have h3 := sum_hand_set g.players g.TURN
    { g.players.getD g.TURN default with
      hand := (g.players.getD g.TURN default).hand.erase
        ((g.players.getD g.TURN default).hand.getD ci 0) } hcur
  refine ⟨?_, ?_, step_preserves_endgame⟩
  · intro hpn hleg
    rw [step_phase0_play g ci pi h0,
      playBranch_upLegal { g with claim_phase_turn := 0 } g.TURN ci pi _ _ _ rfl rfl rfl
        hp hcnt hci hpn hleg]
    unfold turnEndSpec
    simp only []
    have H := afterPlay_turnEnd_full
      { g with
        claim_phase_turn := 0,
        current_player_num_played := g.current_player_num_played + 1,
        piles_up := (g.piles_up.erase (g.piles_up.getD (pileNumOf
          (base_3_conv pi (g.pile_config.1 + g.pile_config.2))) 0))
          ++ [(g.players.getD g.TURN default).hand.getD ci 0],
        players := g.players.set g.TURN { g.players.getD g.TURN default with
          hand := (g.players.getD g.TURN default).hand.erase
            ((g.players.getD g.TURN default).hand.getD ci 0) } }
      g.TURN
      (if (g.players.getD g.TURN default).hand.getD ci 0
          = g.piles_up.getD (pileNumOf (base_3_conv pi (g.pile_config.1 + g.pile_config.2))) 0
            - 10 then 1
       else 1 + -((g.piles_up.getD (pileNumOf (base_3_conv pi
          (g.pile_config.1 + g.pile_config.2))) 0 : ℚ)
          - ((g.players.getD g.TURN default).hand.getD ci 0 : ℚ)) ^ 2 / (2 * 98 ^ 2))
      (by simpa using hcur)
      (by simp only [handsTotal] at h3 hnw ⊢; omega)
      hreach
    rw [getD_set_self g.players g.TURN _ hcur] at H
    simp only [] at H
    exact ⟨H.1, H.2.1, H.2.2.1, H.2.2.2.1,
      fun j hj => (H.2.2.2.2.1 j hj).trans (getD_set_ne g.players g.TURN j _ hj),
      H.2.2.2.2.2.1, H.2.2.2.2.2.2⟩
  · intro hpn hpd hleg
    rw [step_phase0_play g ci pi h0,
      playBranch_downLegal { g with claim_phase_turn := 0 } g.TURN ci pi _ _ _ rfl rfl rfl
        hp hcnt hci hpn hpd hleg]
    unfold turnEndSpec
    simp only []
    have H := afterPlay_turnEnd_full
      { g with
        claim_phase_turn := 0,
        current_player_num_played := g.current_player_num_played + 1,
        piles_down := (g.piles_down.erase (g.piles_down.getD (pileNumOf
          (base_3_conv pi (g.pile_config.1 + g.pile_config.2)) - g.piles_up.length) 0))
          ++ [(g.players.getD g.TURN default).hand.getD ci 0],
        players := g.players.set g.TURN { g.players.getD g.TURN default with
          hand := (g.players.getD g.TURN default).hand.erase
            ((g.players.getD g.TURN default).hand.getD ci 0) } }
      g.TURN
      (if (g.players.getD g.TURN default).hand.getD ci 0
          = g.piles_down.getD (pileNumOf (base_3_conv pi (g.pile_config.1 + g.pile_config.2))
            - g.piles_up.length) 0 + 10 then 1
       else 1 + -(((g.players.getD g.TURN default).hand.getD ci 0 : ℚ)
          - (g.piles_down.getD (pileNumOf (base_3_conv pi
            (g.pile_config.1 + g.pile_config.2)) - g.piles_up.length) 0 : ℚ)) ^ 2 / (2 * 98 ^ 2))
      (by simpa using hcur)
      (by simp only [handsTotal] at h3 hnw ⊢; omega)
      hreach
    rw [getD_set_self g.players g.TURN _ hcur] at H
    simp only [] at H
    exact ⟨H.1, H.2.1, H.2.2.1, H.2.2.2.1,
      fun j hj => (H.2.2.2.2.1 j hj).trans (getD_set_ne g.players g.TURN j _ hj),
      H.2.2.2.2.2.1, H.2.2.2.2.2.2⟩

/-- Two players, `num_must_play = 1`, `hand_size = 3`: player 0's play
completes the turn; the new active player 1 holds only 2 cards while the
deck is nonempty. -/
def gameC4 : Game :=
  { num_players := 2, hand_size := 3, num_must_play := 1, num_must_play_init := 1,
    pile_config := (2, 2), pile_starts := (1, 100), current_player_num_played := 0, phase := 0,
    TURN := 0, claim_phase_turn := 0, claimed_piles := [], deck := [40, 41],
    piles_up := [1, 1], piles_down := [100, 100],
    players := [⟨0, [5, 6, 9], []⟩, ⟨1, [7, 8], []⟩] }

/-- C4 witness: the amended turn-end contract holds at a concrete
turn-completing play. -/
theorem C4_witness :
    turnEndSpec gameC4 ((gameC4.players.getD gameC4.TURN default).hand.getD 0 0)
      (gameC4.step (0, 0, 27)).st :=
  (C4_turn_advancement gameC4 0 27 rfl (by decide) (by decide) (by decide) (by decide)
    (by decide)).1 (by decide) (by decide)

/-- C4 counterexample: after player 0's turn-completing play, the active
index advances to player 1, whose 2-card hand stays `[7, 8]` although the
deck is nonempty and the hand is below hand size — the replenishment went
to player 0 (now `[6, 9, 41]`), not to the new active player. -/
theorem C4_counterexample :
    (gameC4.step (0, 0, 27)).st.TURN = 1 ∧
    (gameC4.step (0, 0, 27)).st.deck = [40] ∧
    ((gameC4.step (0, 0, 27)).st.players.getD 1 default).hand = [7, 8] ∧
    ((gameC4.step (0, 0, 27)).st.players.getD 1 default).hand.length
      < (gameC4.step (0, 0, 27)).st.hand_size ∧
    ((gameC4.step (0, 0, 27)).st.players.getD 0 default).hand = [6, 9, 41] := by decide

/-! ## C10 and C8: invalid play-type actions -/

/-- C10: a play-type call in the play phase, by a player who still has a
legal play, that fails validation (malformed pile selection, out-of-range
card index, an illegal card/pile combination, or a pile number outside
both groups) leaves the deck, every hand and every pile top unchanged,
but the per-turn played-card counter has already been incremented by one
before the checks ran; the call reports the `-10` invalid outcome. -/
theorem C10_invalid_leaves_state (g : Game) (ci pi : ℕ) (h0 : g.phase = 0)
    (hp : (determine_best_single_card g.piles_up g.piles_down
        (g.players.getD g.TURN default).hand [] g.claimed_piles).MIN_CARD ≠ none)
    (hinv : countPiles (base_3_conv pi (g.pile_config.1 + g.pile_config.2)) ≠ 1 ∨
      (countPiles (base_3_conv pi (g.pile_config.1 + g.pile_config.2)) = 1 ∧
        ci ≥ (g.players.getD g.TURN default).hand.length) ∨
      (countPiles (base_3_conv pi (g.pile_config.1 + g.pile_config.2)) = 1 ∧
        ci < (g.players.getD g.TURN default).hand.length ∧
        pileNumOf (base_3_conv pi (g.pile_config.1 + g.pile_config.2)) < g.piles_up.length ∧
        ¬is_legal_ascending ((g.players.getD g.TURN default).hand.getD ci 0)
          (g.piles_up.getD (pileNumOf (base_3_conv pi (g.pile_config.1 + g.pile_config.2))) 0)) ∨
      (countPiles (base_3_conv pi (g.pile_config.1 + g.pile_config.2)) = 1 ∧
        ci < (g.players.getD g.TURN default).hand.length ∧
        ¬(pileNumOf (base_3_conv pi (g.pile_config.1 + g.pile_config.2)) < g.piles_up.length) ∧
        pileNumOf (base_3_conv pi (g.pile_config.1 + g.pile_config.2)) - g.piles_up.length
          < g.piles_down.length ∧
        ¬is_legal_descending ((g.players.getD g.TURN default).hand.getD ci 0)
          (g.piles_down.getD (pileNumOf (base_3_conv pi (g.pile_config.1 + g.pile_config.2))
            - g.piles_up.length) 0)) ∨
      (countPiles (base_3_conv pi (g.pile_config.1 + g.pile_config.2)) = 1 ∧
        ci < (g.players.getD g.TURN default).hand.length ∧
        ¬(pileNumOf (base_3_conv pi (g.pile_config.1 + g.pile_config.2)) < g.piles_up.length) ∧
        ¬(pileNumOf (base_3_conv pi (g.pile_config.1 + g.pile_config.2)) - g.piles_up.length
          < g.piles_down.length))) :
    (g.step (0, ci, pi)).st.deck = g.deck ∧
    (g.step (0, ci, pi)).st.players = g.players ∧
    (g.step (0, ci, pi)).st.piles_up = g.piles_up ∧
    (g.step (0, ci, pi)).st.piles_down = g.piles_down ∧
    (g.step (0, ci, pi)).st.current_player_num_played = g.current_player_num_played + 1 ∧
    (g.step (0, ci, pi)).reward = -10 ∧
    (g.step (0, ci, pi)).terminated = true ∧
    (g.step (0, ci, pi)).truncated = true := by
  rw [step_phase0_play g ci pi h0]
  rcases hinv with hc | ⟨hc, hi⟩ | ⟨hc, hi, hu, hl⟩ | ⟨hc, hi, hu, hd, hl⟩ | ⟨hc, hi, hu, hd⟩
  · rw [playBranch_badCount { g with claim_phase_turn := 0 } g.TURN ci pi hp hc]
    exact ⟨rfl, rfl, rfl, rfl, rfl, rfl, rfl, rfl⟩
  · rw [playBranch_badIndex { g with claim_phase_turn := 0 } g.TURN ci pi hp hc hi]
    exact ⟨rfl, rfl, rfl, rfl, rfl, rfl, rfl, rfl⟩
  · rw [playBranch_upIllegal { g with claim_phase_turn := 0 } g.TURN ci pi hp hc hi hu
      (fun hor => hl hor)]
    exact ⟨rfl, rfl, rfl, rfl, rfl, rfl, rfl, rfl⟩
  · rw [playBranch_downIllegal { g with claim_phase_turn := 0 } g.TURN ci pi hp hc hi hu hd
      (fun hor => hl hor)]
    exact ⟨rfl, rfl, rfl, rfl, rfl, rfl, rfl, rfl⟩
  · rw [playBranch_badPile { g with claim_phase_turn := 0 } g.TURN ci pi hp hc hi hu hd]
    exact ⟨rfl, rfl, rfl, rfl, rfl, rfl, rfl, rfl⟩

/-- C10 witness: an out-of-range card index on a concrete state keeps
deck, hands and piles intact while the counter is bumped. -/
theorem C10_witness :
    (gameC1w.step (0, 5, 27)).st.deck = gameC1w.deck ∧
    (gameC1w.step (0, 5, 27)).st.players = gameC1w.players ∧
    (gameC1w.step (0, 5, 27)).st.piles_up = gameC1w.piles_up ∧
    (gameC1w.step (0, 5, 27)).st.piles_down = gameC1w.piles_down ∧
    (gameC1w.step (0, 5, 27)).st.current_player_num_played
      = gameC1w.current_player_num_played + 1 ∧
    (gameC1w.step (0, 5, 27)).reward = -10 ∧
    (gameC1w.step (0, 5, 27)).terminated = true ∧
    (gameC1w.step (0, 5, 27)).truncated = true :=
  C10_invalid_leaves_state gameC1w 5 27 rfl (by decide)
    (Or.inr (Or.inl ⟨by decide, by decide⟩))

/-- C8 (amended): in the basic scoring shape, an invalid play-type action
is reported through the normal return contract (the model is a total
function; the source path raises no exception) as a terminal outcome
with the fixed INVALID penalty `-10`, ending the episode — PROVIDED the
active player still has at least one legal play.  When no legal play
exists anywhere, the no-legal-play loss outcome (`-5`, terminal, not
truncated) takes precedence over invalid-action reporting, because
`step` runs its no-legal-play check before any validity check. -/
theorem C8_invalid_outcomes (g : Game) (ci pi : ℕ) (h0 : g.phase = 0) :
    (((determine_best_single_card g.piles_up g.piles_down
        (g.players.getD g.TURN default).hand [] g.claimed_piles).MIN_CARD ≠ none) →
      (countPiles (base_3_conv pi (g.pile_config.1 + g.pile_config.2)) ≠ 1 ∨
        (countPiles (base_3_conv pi (g.pile_config.1 + g.pile_config.2)) = 1 ∧
          ci ≥ (g.players.getD g.TURN default).hand.length) ∨
        (countPiles (base_3_conv pi (g.pile_config.1 + g.pile_config.2)) = 1 ∧
          ci < (g.players.getD g.TURN default).hand.length ∧
          pileNumOf (base_3_conv pi (g.pile_config.1 + g.pile_config.2)) < g.piles_up.length ∧
          ¬is_legal_ascending ((g.players.getD g.TURN default).hand.getD ci 0)
            (g.piles_up.getD (pileNumOf (base_3_conv pi (g.pile_config.1 + g.pile_config.2))) 0)) ∨
        (countPiles (base_3_conv pi (g.pile_config.1 + g.pile_config.2)) = 1 ∧
          ci < (g.players.getD g.TURN default).hand.length ∧
          ¬(pileNumOf (base_3_conv pi (g.pile_config.1 + g.pile_config.2)) < g.piles_up.length) ∧
          pileNumOf (base_3_conv pi (g.pile_config.1 + g.pile_config.2)) - g.piles_up.length
            < g.piles_down.length ∧
          ¬is_legal_descending ((g.players.getD g.TURN default).hand.getD ci 0)
            (g.piles_down.getD (pileNumOf (base_3_conv pi (g.pile_config.1 + g.pile_config.2))
              - g.piles_up.length) 0)) ∨
        (countPiles (base_3_conv pi (g.pile_config.1 + g.pile_config.2)) = 1 ∧
          ci < (g.players.getD g.TURN default).hand.length ∧
          ¬(pileNumOf (base_3_conv pi (g.pile_config.1 + g.pile_config.2)) < g.piles_up.length) ∧
          ¬(pileNumOf (base_3_conv pi (g.pile_config.1 + g.pile_config.2)) - g.piles_up.length
            < g.piles_down.length))) →
      ((g.step (0, ci, pi)).reward = -10 ∧ (g.step (0, ci, pi)).terminated = true ∧
        (g.step (0, ci, pi)).truncated = true)) ∧
    (((determine_best_single_card g.piles_up g.piles_down
        (g.players.getD g.TURN default).hand [] g.claimed_piles).MIN_CARD = none) →
      ((g.step (0, ci, pi)).reward = -5 ∧ (g.step (0, ci, pi)).terminated = true ∧
        (g.step (0, ci, pi)).truncated = false)) := by
  constructor
  · intro hp hinv
    have H := C10_invalid_leaves_state g ci pi h0 hp hinv
    exact ⟨H.2.2.2.2.2.1, H.2.2.2.2.2.2.1, H.2.2.2.2.2.2.2⟩
  · intro hp
    rw [step_phase0_play g ci pi h0,
      playBranch_noPlay { g with claim_phase_turn := 0 } g.TURN ci pi hp]
    exact ⟨rfl, rfl, rfl⟩

/-- A state whose single player has no legal play anywhere: card 10 fits
no ascending pile at 50 and no descending pile at 5. -/
def gameC8 : Game :=
  { num_players := 1, hand_size := 1, num_must_play := 2, num_must_play_init := 2,
    pile_config := (2, 2), pile_starts := (1, 100), current_player_num_played := 0, phase := 0,
    TURN := 0, claim_phase_turn := 0, claimed_piles := [], deck := [],
    piles_up := [50, 50], piles_down := [5, 5], players := [⟨0, [10], []⟩] }

/-- C8 witness: a concrete invalid action (out-of-range card index) by a
player who still has a legal play is reported with the `-10` penalty and
ends the episode. -/
theorem C8_witness :
    (gameC1w.step (0, 7, 27)).reward = -10 ∧ (gameC1w.step (0, 7, 27)).terminated = true ∧
    (gameC1w.step (0, 7, 27)).truncated = true :=
  (C8_invalid_outcomes gameC1w 7 27 rfl).1 (by decide) (Or.inr (Or.inl ⟨by decide, by decide⟩))

/-- C8 counterexample: with no legal play available, an out-of-range
card index (an invalid action by the claim's taxonomy) is reported with
the loss penalty `-5`, not the fixed INVALID penalty `-10`. -/
theorem C8_counterexample :
    5 ≥ ((gameC8.players.getD 0 default).hand).length ∧
    (gameC8.step (0, 5, 27)).reward = -5 ∧
    (gameC8.step (0, 5, 27)).terminated = true ∧
    (gameC8.step (0, 5, 27)).reward ≠ -10 := by decide

/-! ## C7 -/

/-- `afterPlay` never changes the pile lists. -/
theorem afterPlay_piles (g3 : Game) (c : ℕ) (s : ℚ) :
    (afterPlay g3 c s).st.piles_up = g3.piles_up ∧
    (afterPlay g3 c s).st.piles_down = g3.piles_down := by
  unfold afterPlay
  split
  · exact ⟨rfl, rfl⟩
  · simp only []
    split <;> (try split) <;> exact ⟨rfl, rfl⟩

/-- C7 (amended): a legal play changes only the addressed pile kind, and
changes it by removing the FIRST occurrence of the addressed top value
and appending the played card at the end — so, as a multiset of tops,
exactly one pile changes (old top replaced by the card, also when two
piles share the same top value), the number of piles is preserved, and
the other kind's list is untouched; but the positional association of
pile indices is not preserved. -/
theorem C7_play_pile_effect (g : Game) (ci pi : ℕ) (h0 : g.phase = 0)
    (hp : (determine_best_single_card g.piles_up g.piles_down
        (g.players.getD g.TURN default).hand [] g.claimed_piles).MIN_CARD ≠ none)
    (hcnt : countPiles (base_3_conv pi (g.pile_config.1 + g.pile_config.2)) = 1)
    (hci : ci < (g.players.getD g.TURN default).hand.length) :
    (∀ card top : ℤ, card = (g.players.getD g.TURN default).hand.getD ci 0 →
      top = g.piles_up.getD (pileNumOf (base_3_conv pi (g.pile_config.1 + g.pile_config.2))) 0 →
      pileNumOf (base_3_conv pi (g.pile_config.1 + g.pile_config.2)) < g.piles_up.length →
      is_legal_ascending card top →
      (g.step (0, ci, pi)).st.piles_up = (g.piles_up.erase top) ++ [card] ∧
      ((g.step (0, ci, pi)).st.piles_up : Multiset ℤ)
        = ((g.piles_up : Multiset ℤ).erase top) + {card} ∧
      (g.step (0, ci, pi)).st.piles_up.length = g.piles_up.length ∧
      (g.step (0, ci, pi)).st.piles_down = g.piles_down) ∧
    (∀ card top : ℤ, card = (g.players.getD g.TURN default).hand.getD ci 0 →
      top = g.piles_down.getD (pileNumOf (base_3_conv pi (g.pile_config.1 + g.pile_config.2))
        - g.piles_up.length) 0 →
      ¬(pileNumOf (base_3_conv pi (g.pile_config.1 + g.pile_config.2)) < g.piles_up.length) →
      pileNumOf (base_3_conv pi (g.pile_config.1 + g.pile_config.2)) - g.piles_up.length
        < g.piles_down.length →
      is_legal_descending card top →
      (g.step (0, ci, pi)).st.piles_down = (g.piles_down.erase top) ++ [card] ∧
      ((g.step (0, ci, pi)).st.piles_down : Multiset ℤ)
        = ((g.piles_down : Multiset ℤ).erase top) + {card} ∧
      (g.step (0, ci, pi)).st.piles_down.length = g.piles_down.length ∧
      (g.step (0, ci, pi)).st.piles_up = g.piles_up) := by
  constructor
  · rintro card top rfl rfl hpn hleg
    rw [step_phase0_play g ci pi h0,
      playBranch_upLegal { g with claim_phase_turn := 0 } g.TURN ci pi _ _ _ rfl rfl rfl
        hp hcnt hci hpn hleg]
    have htopmem : g.piles_up.getD (pileNumOf
        (base_3_conv pi (g.pile_config.1 + g.pile_config.2))) 0 ∈ g.piles_up := by
      rw [List.getD_eq_getElem _ _ hpn]
      exact List.getElem_mem hpn
    refine ⟨?_, ?_, ?_, ?_⟩
    · rw [(afterPlay_piles _ _ _).1]
    · rw [(afterPlay_piles _ _ _).1]
      rw [show ((g.piles_up : Multiset ℤ).erase (g.piles_up.getD (pileNumOf
          (base_3_conv pi (g.pile_config.1 + g.pile_config.2))) 0))
          = ((g.piles_up.erase (g.piles_up.getD (pileNumOf
            (base_3_conv pi (g.pile_config.1 + g.pile_config.2))) 0) : List ℤ) : Multiset ℤ)
        from (Multiset.coe_erase _ _).symm]
      rfl
    · rw [(afterPlay_piles _ _ _).1]
      show (g.piles_up.erase _ ++ [_] : List ℤ).length = _
      rw [List.length_append, List.length_erase_of_mem htopmem]
      have : 1 ≤ g.piles_up.length := by omega
      simp
      omega
    · rw [(afterPlay_piles _ _ _).2]
  · rintro card top rfl rfl hpn hpd hleg
    rw [step_phase0_play g ci pi h0,
      playBranch_downLegal { g with claim_phase_turn := 0 } g.TURN ci pi _ _ _ rfl rfl rfl
        hp hcnt hci hpn hpd hleg]
    have htopmem : g.piles_down.getD (pileNumOf
        (base_3_conv pi (g.pile_config.1 + g.pile_config.2)) - g.piles_up.length) 0
        ∈ g.piles_down := by
      rw [List.getD_eq_getElem _ _ hpd]
      exact List.getElem_mem hpd
    refine ⟨?_, ?_, ?_, ?_⟩
    · rw [(afterPlay_piles _ _ _).2]
    · rw [(afterPlay_piles _ _ _).2]
      rw [show ((g.piles_down : Multiset ℤ).erase (g.piles_down.getD (pileNumOf
          (base_3_conv pi (g.pile_config.1 + g.pile_config.2)) - g.piles_up.length) 0))
          = ((g.piles_down.erase (g.piles_down.getD (pileNumOf
            (base_3_conv pi (g.pile_config.1 + g.pile_config.2)) - g.piles_up.length) 0)
              : List ℤ) : Multiset ℤ)
        from (Multiset.coe_erase _ _).symm]
      rfl
    · rw [(afterPlay_piles _ _ _).2]
      show (g.piles_down.erase _ ++ [_] : List ℤ).length = _
      rw [List.length_append, List.length_erase_of_mem htopmem]
      have : 1 ≤ g.piles_down.length := by omega
      simp
      omega
    · rw [(afterPlay_piles _ _ _).1]

/-- Ascending piles at `[3, 5]` with card 4 in hand: playing 4 on pile
index 0 exercises the remove-then-append update. -/
def gameC7 : Game :=
  { num_players := 1, hand_size := 6, num_must_play := 2, num_must_play_init := 2,
    pile_config := (2, 2), pile_starts := (1, 100), current_player_num_played := 0, phase := 0,
    TURN := 0, claim_phase_turn := 0, claimed_piles := [], deck := [40, 41],
    piles_up := [3, 5], piles_down := [100, 100], players := [⟨0, [4, 20, 30], []⟩] }

/-- C7 witness: the amended effect at a concrete state — first occurrence
of the old top removed, card appended, multiset and length as stated. -/
theorem C7_witness :
    (gameC7.step (0, 0, 27)).st.piles_up = (gameC7.piles_up.erase 3) ++ [4] ∧
    ((gameC7.step (0, 0, 27)).st.piles_up : Multiset ℤ)
      = ((gameC7.piles_up : Multiset ℤ).erase 3) + {4} ∧
    (gameC7.step (0, 0, 27)).st.piles_up.length = gameC7.piles_up.length ∧
    (gameC7.step (0, 0, 27)).st.piles_down = gameC7.piles_down :=
  (C7_play_pile_effect gameC7 0 27 rfl (by decide) (by decide) (by decide)).1
    4 3 (by decide) (by decide) (by decide) (by decide)

/-- C7 counterexample: after the legal play of card 4 on ascending pile
index 0 (top 3), the addressed index 0 does NOT hold the played card,
and the non-addressed pile's top (5) is no longer at its old index 1 —
the positional part of the claim fails. -/
theorem C7_counterexample :
    (gameC7.step (0, 0, 27)).st.piles_up = [5, 4] ∧
    (gameC7.step (0, 0, 27)).st.piles_up.getD 0 0 ≠ 4 ∧
    (gameC7.step (0, 0, 27)).st.piles_up.getD 1 0 ≠ gameC7.piles_up.getD 1 0 := by decide

/-! ## C9: decoding of the base-3 pile selection -/

theorem base_3_conv_zero (p : ℕ) : base_3_conv 0 p = List.replicate p 0 := by
  induction p with
  | zero => rfl
  | succ n ih =>
    rw [base_3_conv]
    simp [ih, List.replicate_succ']

theorem base_3_conv_pow (k p : ℕ) (h : k < p) :
    base_3_conv (3 ^ k) p = List.replicate (p - 1 - k) 0 ++ [1] ++ List.replicate k 0 := by
  induction p generalizing k with
  | zero => omega
  | succ n ih =>
    rw [base_3_conv]
    cases k with
    | zero => norm_num [base_3_conv_zero]
    | succ m =>
      have h1 : 3 ^ (m + 1) / 3 = 3 ^ m := by
        rw [pow_succ]
        exact Nat.mul_div_cancel _ (by norm_num)
      have h2 : 3 ^ (m + 1) % 3 = 0 := by
        rw [pow_succ]
        exact Nat.mul_mod_left _ _
      rw [h1, h2, ih m (by omega)]
      have h3 : n + 1 - 1 - (m + 1) = n - 1 - m := by omega
      rw [h3, List.replicate_succ' m 0]
      simp

theorem countPiles_single (a b x : ℕ) (hx : x ≠ 0) :
    countPiles (List.replicate a 0 ++ [x] ++ List.replicate b 0) = 1 := by
  simp [countPiles, List.filter_append, List.filter_replicate, hx]

theorem getD_replicate_zero (n m : ℕ) : (List.replicate n (0 : ℕ)).getD m 0 = 0 := by
  rw [List.getD_eq_getElem?_getD, List.getElem?_replicate]
  split <;> rfl

theorem getD_concat_left (a b x : ℕ) (j : ℕ) (hj : j < a) :
    (List.replicate a 0 ++ [x] ++ List.replicate b 0).getD j 0 = 0 := by
  rw [List.getD_append _ _ _ j (by simp; omega), List.getD_append _ _ _ j (by simp [hj]),
    getD_replicate_zero]

theorem getD_concat_mid (a b x : ℕ) :
    (List.replicate a 0 ++ [x] ++ List.replicate b 0).getD a 0 = x := by
  rw [List.getD_append _ _ _ a (by simp), List.getD_append_right _ _ _ a (by simp)]
  simp

theorem getD_concat_right (a b x : ℕ) (j : ℕ) (hj : a < j) :
    (List.replicate a 0 ++ [x] ++ List.replicate b 0).getD j 0 = 0 := by
  rw [List.getD_append_right _ _ _ j (by simp; omega), getD_replicate_zero]

theorem pileNumOf_single (a b x : ℕ) (hx : x ≠ 0) :
    pileNumOf (List.replicate a 0 ++ [x] ++ List.replicate b 0) = a := by
  unfold pileNumOf
  have hlen : (List.replicate a 0 ++ [x] ++ List.replicate b 0).length = a + 1 + b := by
    simp
    omega
  rw [hlen]
  have key : ∀ m, (List.range (a + 1 + m)).foldl
      (fun acc p => if (List.replicate a 0 ++ [x] ++ List.replicate b 0).getD p 0 ≠ 0
        then p else acc) 0 = a := by
    intro m
    induction m with
    | zero =>
      rw [List.range_succ, List.foldl_append]
      simp only [List.foldl_cons, List.foldl_nil]
      rw [if_pos (by rw [getD_concat_mid]; exact hx)]
    | succ n ihn =>
      have : a + 1 + (n + 1) = (a + 1 + n) + 1 := by omega
      rw [this, List.range_succ, List.foldl_append]
      simp only [List.foldl_cons, List.foldl_nil]
      rw [if_neg (by rw [getD_concat_right a b x _ (by omega)]; simp), ihn]
  rw [key b]

/-- C9 (amended): `step` consumes a triple `(action_type, card_index,
pile_code)` — not a pair — where a play's `pile_code` is decoded into
`num_up + num_down` base-3 digits (most significant first) and must
select exactly one pile by a single nonzero digit; the code
`3 ^ (num_piles − 1 − p)` puts its only nonzero digit at position `p`,
and position `p` addresses ascending pile `p` when `p < num_up`, else
descending pile `p − num_up`, in order. -/
theorem C9_action_encoding (g : Game) (ci p : ℕ) (h0 : g.phase = 0)
    (hp : (determine_best_single_card g.piles_up g.piles_down
        (g.players.getD g.TURN default).hand [] g.claimed_piles).MIN_CARD ≠ none)
    (hci : ci < (g.players.getD g.TURN default).hand.length)
    (hcfg : g.pile_config.1 + g.pile_config.2 = g.piles_up.length + g.piles_down.length)
    (hpL : p < g.piles_up.length + g.piles_down.length) :
    countPiles (base_3_conv (3 ^ (g.piles_up.length + g.piles_down.length - 1 - p))
      (g.pile_config.1 + g.pile_config.2)) = 1 ∧
    pileNumOf (base_3_conv (3 ^ (g.piles_up.length + g.piles_down.length - 1 - p))
      (g.pile_config.1 + g.pile_config.2)) = p ∧
    (p < g.piles_up.length →
      is_legal_ascending ((g.players.getD g.TURN default).hand.getD ci 0)
        (g.piles_up.getD p 0) →
      (g.step (0, ci, 3 ^ (g.piles_up.length + g.piles_down.length - 1 - p))).st.piles_up
        = (g.piles_up.erase (g.piles_up.getD p 0))
          ++ [(g.players.getD g.TURN default).hand.getD ci 0] ∧
      (g.step (0, ci, 3 ^ (g.piles_up.length + g.piles_down.length - 1 - p))).st.piles_down
        = g.piles_down) ∧
    (g.piles_up.length ≤ p →
      is_legal_descending ((g.players.getD g.TURN default).hand.getD ci 0)
        (g.piles_down.getD (p - g.piles_up.length) 0) →
      (g.step (0, ci, 3 ^ (g.piles_up.length + g.piles_down.length - 1 - p))).st.piles_down
        = (g.piles_down.erase (g.piles_down.getD (p - g.piles_up.length) 0))
          ++ [(g.players.getD g.TURN default).hand.getD ci 0] ∧
      (g.step (0, ci, 3 ^ (g.piles_up.length + g.piles_down.length - 1 - p))).st.piles_up
        = g.piles_up) := by
  have hk : g.piles_up.length + g.piles_down.length - 1 - p
      < g.piles_up.length + g.piles_down.length := by omega
  have hdig : base_3_conv (3 ^ (g.piles_up.length + g.piles_down.length - 1 - p))
      (g.pile_config.1 + g.pile_config.2)
      = List.replicate p 0 ++ [1]
        ++ List.replicate (g.piles_up.length + g.piles_down.length - 1 - p) 0 := by
    rw [hcfg, base_3_conv_pow _ _ hk]
    have h4 : g.piles_up.length + g.piles_down.length - 1
        - (g.piles_up.length + g.piles_down.length - 1 - p) = p := by omega
    rw [h4]
  have hcnt : countPiles (base_3_conv (3 ^ (g.piles_up.length + g.piles_down.length - 1 - p))
      (g.pile_config.1 + g.pile_config.2)) = 1 := by
    rw [hdig]
    exact countPiles_single _ _ 1 one_ne_zero
  have hpn : pileNumOf (base_3_conv (3 ^ (g.piles_up.length + g.piles_down.length - 1 - p))
      (g.pile_config.1 + g.pile_config.2)) = p := by
    rw [hdig]
    exact pileNumOf_single _ _ 1 one_ne_zero
  refine ⟨hcnt, hpn, ?_, ?_⟩
  · intro hup hleg
    rw [step_phase0_play g ci _ h0,
      playBranch_upLegal { g with claim_phase_turn := 0 } g.TURN ci
        (3 ^ (g.piles_up.length + g.piles_down.length - 1 - p)) _ _ _ rfl rfl rfl
        hp hcnt hci (by rw [hpn]; exact hup) (by rw [hpn]; exact hleg)]
    constructor
    · rw [(afterPlay_piles _ _ _).1, hpn]
    · rw [(afterPlay_piles _ _ _).2]
  · intro hup hleg
    rw [step_phase0_play g ci _ h0,
      playBranch_downLegal { g with claim_phase_turn := 0 } g.TURN ci
        (3 ^ (g.piles_up.length + g.piles_down.length - 1 - p)) _ _ _ rfl rfl rfl
        hp hcnt hci (by rw [hpn]; exact Nat.not_lt.mpr hup)
        (by rw [hpn]; exact (by omega : p - g.piles_up.length < g.piles_down.length))
        (by rw [hpn]; exact hleg)]
    constructor
    · rw [(afterPlay_piles _ _ _).2, hpn]
    · rw [(afterPlay_piles _ _ _).1]

/-- C9 witness: on a concrete state, code `27 = 3³` selects position 0
(the first ascending pile) out of four piles. -/
theorem C9_witness :
    (gameC1w.step (0, 0, 3 ^ (gameC1w.piles_up.length + gameC1w.piles_down.length - 1 - 0))).st.piles_up
      = (gameC1w.piles_up.erase (gameC1w.piles_up.getD 0 0))
        ++ [(gameC1w.players.getD gameC1w.TURN default).hand.getD 0 0] ∧
    (gameC1w.step (0, 0, 3 ^ (gameC1w.piles_up.length
        + gameC1w.piles_down.length - 1 - 0))).st.piles_down = gameC1w.piles_down :=
  (C9_action_encoding gameC1w 0 0 rfl (by decide) (by decide) (by decide)
    (by decide)).2.2.1 (by decide) (by decide)

/-- C9 counterexample: read as the claim says, `pile_index = 0` would
address the first ascending pile, on which card 3 is legal — but `step`
rejects the action `(0, 0, 0)` as invalid (code 0 selects no pile),
because the third action component is a base-3 selection code, not a
direct pile index. -/
theorem C9_counterexample :
    is_legal_ascending ((gameC1w.players.getD 0 default).hand.getD 0 0)
      (gameC1w.piles_up.getD 0 0) ∧
    (gameC1w.step (0, 0, 0)).reward = -10 ∧
    (gameC1w.step (0, 0, 0)).truncated = true := by decide

/-! ## C5: characterization of the greedy card selection -/

/-- Invariant of the outer fold of `determine_best_single_card` after
processing the cards in `pre0`: either nothing was picked and every
processed card scanned to at least the sentinel 101, or the pick is the
FIRST processed card attaining the strictly smallest scan cost, and its
score/pile are that card's scan results. -/
def BestInv (scan : ℤ → ℚ × ℤ) (pre0 : List ℤ) (acc : BestChoice) : Prop :=
  (acc.MIN_CARD = none → acc = ⟨none, 101, 101⟩ ∧ ∀ d ∈ pre0, 101 ≤ (scan d).1) ∧
  (∀ c, acc.MIN_CARD = some c → acc.MIN_SCORE = (scan c).1 ∧ acc.MIN_PILE = (scan c).2 ∧
    (scan c).1 < 101 ∧
    (∃ a b, pre0 = a ++ c :: b ∧ (∀ d ∈ a, (scan c).1 < (scan d).1)) ∧
    (∀ d ∈ pre0, (scan c).1 ≤ (scan d).1))

theorem bestInv_step (scan : ℤ → ℚ × ℤ) (pre0 : List ℤ) (acc : BestChoice) (x : ℤ)
    (h : BestInv scan pre0 acc) :
    BestInv scan (pre0 ++ [x])
      (if (scan x).1 < acc.MIN_SCORE then ⟨some x, (scan x).1, (scan x).2⟩ else acc) := by
  have hscore : acc.MIN_SCORE ≤ 101 := by
    cases hm : acc.MIN_CARD with
    | none => rw [(h.1 hm).1]
    | some c =>
      have := (h.2 c hm)
      rw [this.1]
      exact le_of_lt this.2.2.1
  by_cases hx : (scan x).1 < acc.MIN_SCORE
  · rw [if_pos hx]
    constructor
    · intro hnone
      exact absurd hnone (by simp)
    · intro c hc
      have hcx : c = x := (by simpa using hc : x = c).symm
      subst hcx
      refine ⟨rfl, rfl, lt_of_lt_of_le hx hscore, ⟨pre0, [], by simp, ?_⟩, ?_⟩
      · intro d hd
        cases hm : acc.MIN_CARD with
        | none =>
          have := (h.1 hm).2 d hd
          calc (scan c).1 < acc.MIN_SCORE := hx
            _ = 101 := by rw [(h.1 hm).1]
            _ ≤ (scan d).1 := this
        | some e =>
          have he := h.2 e hm
          calc (scan c).1 < acc.MIN_SCORE := hx
            _ = (scan e).1 := he.1
            _ ≤ (scan d).1 := he.2.2.2.2 d hd
      · intro d hd
        rcases List.mem_append.mp hd with hd | hd
        · cases hm : acc.MIN_CARD with
          | none =>
            have := (h.1 hm).2 d hd
            have h101 : acc.MIN_SCORE = 101 := by rw [(h.1 hm).1]
            calc (scan c).1 ≤ acc.MIN_SCORE := le_of_lt hx
              _ = 101 := h101
              _ ≤ (scan d).1 := this
          | some e =>
            have he := h.2 e hm
            calc (scan c).1 ≤ acc.MIN_SCORE := le_of_lt hx
              _ = (scan e).1 := he.1
              _ ≤ (scan d).1 := he.2.2.2.2 d hd
        · have : d = c := by simpa using hd
          subst this
          exact le_refl _
  · rw [if_neg hx]
    constructor
    · intro hnone
      have h1 := h.1 hnone
      refine ⟨h1.1, ?_⟩
      intro d hd
      rcases List.mem_append.mp hd with hd | hd
      · exact h1.2 d hd
      · have : d = x := by simpa using hd
        subst this
        have : acc.MIN_SCORE = 101 := by rw [h1.1]
        rw [← this]
        exact le_of_not_lt hx
    · intro c hc
      have h2 := h.2 c hc
      obtain ⟨a, b, hab, ha⟩ := h2.2.2.2.1
      refine ⟨h2.1, h2.2.1, h2.2.2.1, ⟨a, b ++ [x], by rw [hab]; simp, ha⟩, ?_⟩
      intro d hd
      rcases List.mem_append.mp hd with hd | hd
      · exact h2.2.2.2.2 d hd
      · have : d = x := by simpa using hd
        subst this
        rw [← h2.1]
        exact le_of_not_lt hx

theorem bestInv_foldl (scan : ℤ → ℚ × ℤ) :
    ∀ (hand pre0 : List ℤ) (acc : BestChoice), BestInv scan pre0 acc →
    BestInv scan (pre0 ++ hand)
      (hand.foldl (fun acc card =>
        if (scan card).1 < acc.MIN_SCORE then ⟨some card, (scan card).1, (scan card).2⟩
        else acc) acc) := by
  intro hand
  induction hand with
  | nil => intro pre0 acc h; simpa using h
  | cons x xs ih =>
    intro pre0 acc h
    have hstep := bestInv_step scan pre0 acc x h
    have := ih (pre0 ++ [x]) _ hstep
    rw [List.append_assoc] at this
    simpa using this

/-- C5 (amended): `determine_best_single_card` returns no card exactly
when every hand card's sequential pile scan (`cardScan`: ascending piles
overwrite the running cost unconditionally when legal, descending piles
overwrite on a shortcut or when strictly cheaper, and +0.1 is added once
per pile iteration whose shortcut partner was seen) stays at or above
the sentinel 101; when it returns a card, the returned score and pile
are that card's scan results, and the card is the FIRST card of the hand
attaining the strictly smallest scan cost (ties keep the earlier card). -/
theorem C5_best_single_card (up_piles down_piles hand cards_seen : List ℤ)
    (claimed : List (ℕ × List ℕ)) :
    ((determine_best_single_card up_piles down_piles hand cards_seen claimed).MIN_CARD = none ↔
      ∀ c ∈ hand, 101 ≤ (cardScan up_piles down_piles cards_seen c).1) ∧
    (∀ c, (determine_best_single_card up_piles down_piles hand cards_seen claimed).MIN_CARD
        = some c →
      (determine_best_single_card up_piles down_piles hand cards_seen claimed).MIN_SCORE
        = (cardScan up_piles down_piles cards_seen c).1 ∧
      (determine_best_single_card up_piles down_piles hand cards_seen claimed).MIN_PILE
        = (cardScan up_piles down_piles cards_seen c).2 ∧
      (cardScan up_piles down_piles cards_seen c).1 < 101 ∧
      (∃ pre post, hand = pre ++ c :: post ∧
        (∀ d ∈ pre, (cardScan up_piles down_piles cards_seen c).1
          < (cardScan up_piles down_piles cards_seen d).1)) ∧
      (∀ d ∈ hand, (cardScan up_piles down_piles cards_seen c).1
        ≤ (cardScan up_piles down_piles cards_seen d).1)) := by
  have hinit : BestInv (cardScan up_piles down_piles cards_seen) [] ⟨none, 101, 101⟩ :=
    ⟨fun _ => ⟨rfl, by simp⟩, fun c hc => by simp at hc⟩
  have H := bestInv_foldl (cardScan up_piles down_piles cards_seen) hand [] _ hinit
  rw [List.nil_append] at H
  have hdet : determine_best_single_card up_piles down_piles hand cards_seen claimed
      = hand.foldl (fun acc card =>
        if (cardScan up_piles down_piles cards_seen card).1 < acc.MIN_SCORE
        then ⟨some card, (cardScan up_piles down_piles cards_seen card).1,
          (cardScan up_piles down_piles cards_seen card).2⟩
        else acc) ⟨none, 101, 101⟩ := rfl
  rw [← hdet] at H
  constructor
  · constructor
    · intro hn
      exact (H.1 hn).2
    · intro hall
      cases hm : (determine_best_single_card up_piles down_piles hand cards_seen
          claimed).MIN_CARD with
      | none => rfl
      | some c =>
        have hc := H.2 c hm
        obtain ⟨a, b, hab, _⟩ := hc.2.2.2.1
        have hmemc : c ∈ hand := by rw [hab]; simp
        exact absurd (hall c hmemc) (not_le.mpr hc.2.2.1)
  · intro c hc
    exact H.2 c hc

/-- C5 witness: on a concrete input the returned score is card 60's scan
cost and is minimal over the hand. -/
theorem C5_witness :
    (determine_best_single_card [50, 10] [] [60, 70] [] []).MIN_SCORE
      = (cardScan [50, 10] [] [] 60).1 ∧
    ∀ d ∈ ([60, 70] : List ℤ),
      (cardScan [50, 10] [] [] 60).1 ≤ (cardScan [50, 10] [] [] d).1 := by
  have h := (C5_best_single_card [50, 10] [] [60, 70] [] []).2 60 (by decide)
  exact ⟨h.1, h.2.2.2.2⟩

/-- C5 counterexample: with hand `[60]` and ascending piles `[50, 10]`,
the minimum cost over all piles is 10 (gap to pile 50), but the code's
unconditional overwrite in the ascending loop returns cost 50 on pile
10; and with pile tops `[50, 65]` and `50` already seen, the +0.1
adjustment is applied once per pile iteration, giving 10.2 instead of
the claimed single-adjustment 10.1. -/
theorem C5_counterexample :
    determine_best_single_card [50, 10] [] [60] [] [] = ⟨some 60, 50, 10⟩ ∧
    spec_card_cost [50, 10] [] [] 60 = 10 ∧ ((50 : ℚ) ≠ 10) ∧
    (determine_best_single_card [50, 65] [] [60] [50] []).MIN_SCORE = 10 + 2/10 ∧
    spec_card_cost [50, 65] [] [50] 60 = 10 + 1/10 := by
  refine ⟨by decide, ?_, by decide, ?_, ?_⟩
  · norm_num [spec_card_cost, upPileScan, downPileScan]
  · norm_num [determine_best_single_card, cardScan, upPileScan, downPileScan]
  · norm_num [spec_card_cost, upPileScan, downPileScan]

/-! ## C6: card conservation over reachable states -/

/-- The identity shuffle: the deck `[2, …, 99]` in natural order (one
possible outcome of `random.shuffle`). -/
def idDeck : List ℤ := (List.range 98).map (fun i => (i : ℤ) + 2)

/-- The states reachable from a fresh game: `Game.reset` with the default
pile start values `(1, 100)` and any shuffle of the full deck
`{2, …, 99}`, closed under `step` with arbitrary actions. -/
inductive Reachable : Game → Prop
  | base (np hs nmp : ℕ) (pc : ℕ × ℕ) (d : List ℤ)
      (hd : (d : Multiset ℤ) = fullDeck) :
      Reachable (Game.reset np hs nmp pc (1, 100) d)
  | play (g : Game) (a : ℕ × ℕ × ℕ) (hg : Reachable g) : Reachable (g.step a).st

/-- The draw loop conserves cards: the resulting deck and hand together
hold the same multiset as the incoming deck and hand. -/
theorem drawLoop_cards (deck hand : List ℤ) (hs : ℕ) :
    ((drawLoop deck hand hs).1 : Multiset ℤ) + ((drawLoop deck hand hs).2 : Multiset ℤ)
      = (deck : Multiset ℤ) + (hand : Multiset ℤ) := by
  rw [drawLoop_eq]
  simp only [← Multiset.coe_add, Multiset.coe_reverse]
  conv_rhs =>
    rw [← List.take_append_drop
      (deck.length - min (hs - hand.length) deck.length) deck, ← Multiset.coe_add]
  abel

/-- Dealing `k` cards off the end of the deck conserves cards. -/
theorem popN_cards (deck : List ℤ) (k : ℕ) :
    ((popN deck k).1 : Multiset ℤ) + ((popN deck k).2 : Multiset ℤ) = (deck : Multiset ℤ) := by
  induction k generalizing deck with
  | zero => simp [popN]
  | succ n ih =>
    rw [popN]
    split
    · simp
    · rename_i h
      simp only []
      rw [← Multiset.cons_coe, ← Multiset.singleton_add, add_assoc, ih]
      rw [add_comm, ← Multiset.coe_singleton, Multiset.coe_add,
        List.dropLast_append_getLast h]

/-- Dealing the initial hands conserves cards: the dealt hands plus the
remaining deck hold exactly the incoming deck. -/
theorem initialize_players_cards (n : ℕ) (hs : ℕ) (deck : List ℤ) (i : ℕ) :
    ((((initialize_players n hs deck i).1.map Player.hand).flatten : List ℤ) : Multiset ℤ)
        + ((initialize_players n hs deck i).2 : Multiset ℤ)
      = (deck : Multiset ℤ) := by
  induction n generalizing deck i with
  | zero => simp [initialize_players]
  | succ n ih =>
    rw [initialize_players]
    simp only [List.map_cons, List.flatten_cons]
    rw [← Multiset.coe_add, add_assoc, ih, popN_cards]

/-- At `reset`, the multiset of cards in play is exactly the shuffled
deck handed to the shuffler: the sentinel pile tops `1` and `100` are
filtered out and the dealt hands plus the remaining deck recompose the
full deck. -/
theorem reset_cards (np hs nmp : ℕ) (pc : ℕ × ℕ) (d : List ℤ) :
    cardsInPlay (Game.reset np hs nmp pc (1, 100) d) = (d : Multiset ℤ) := by
  unfold cardsInPlay Game.reset
  simp only [List.filter_append, List.filter_replicate]
  norm_num
  have h := initialize_players_cards np hs d 0
  rw [Multiset.coe_add, Multiset.coe_eq_coe] at h
  exact List.Perm.trans List.perm_append_comm h

/-- Replacing one player's hand changes the flattened hand multiset by
exactly swapping the old hand for the new one. -/
theorem flatten_set_hand (ps : List Player) (i : ℕ) (Q : Player) (hi : i < ps.length) :
    ((((ps.set i Q).map Player.hand).flatten : List ℤ) : Multiset ℤ)
        + (((ps.getD i default).hand : List ℤ) : Multiset ℤ)
      = (((ps.map Player.hand).flatten : List ℤ) : Multiset ℤ) + (Q.hand : Multiset ℤ) := by
  induction ps generalizing i with
  | nil => simp at hi
  | cons a l ih =>
    cases i with
    | zero =>
      simp only [List.set_cons_zero, List.map_cons, List.flatten_cons, List.getD_cons_zero]
      rw [← Multiset.coe_add, ← Multiset.coe_add]
      abel
    | succ n =>
      simp only [List.set_cons_succ, List.map_cons, List.flatten_cons, List.getD_cons_succ]
      rw [← Multiset.coe_add, ← Multiset.coe_add]
      rw [add_assoc, ih n (by simpa using hi), ← add_assoc]

/-- A `getD` read inside the list bounds is a member of the list. -/
theorem getD_mem (l : List ℤ) (i : ℕ) (hi : i < l.length) : l.getD i 0 ∈ l := by
  rw [List.getD_eq_getElem l 0 hi]
  exact List.getElem_mem hi

/-- If the player slot read through `getD` has a nonempty hand, the index
is within the player list (the out-of-range default has an empty hand). -/
theorem getD_hand_lt (ps : List Player) (c : ℕ)
    (h : (ps.getD c default).hand ≠ []) : c < ps.length := by
  by_contra hc
  rw [List.getD_eq_default _ _ (by omega)] at h
  exact h rfl

/-- Filtering after erasing one element yields a sub-multiset of the
filtered original. -/
theorem filter_erase_le (l : List ℤ) (a : ℤ) (p : ℤ → Bool) :
    (((l.erase a).filter p : List ℤ) : Multiset ℤ) ≤ ((l.filter p : List ℤ) : Multiset ℤ) :=
  Multiset.coe_le.mpr ((List.erase_sublist a l).filter p).subperm

/-- Filtering a singleton yields a sub-multiset of the singleton. -/
theorem filter_singleton_le (a : ℤ) (p : ℤ → Bool) :
    (([a].filter p : List ℤ) : Multiset ℤ) ≤ ({a} : Multiset ℤ) := by
  rw [List.filter_cons]
  split
  · exact le_of_eq rfl
  · exact Multiset.zero_le _

/-- The filtered tops after an ascending play — the addressed top erased,
the played card appended — are bounded by the old filtered tops plus the
played card. -/
theorem tops_up_le (up down : List ℤ) (pile card : ℤ) (p : ℤ → Bool) :
    ((((up.erase pile ++ [card]) ++ down).filter p : List ℤ) : Multiset ℤ)
      ≤ (((up ++ down).filter p : List ℤ) : Multiset ℤ) + {card} := by
  simp only [List.filter_append]
  rw [← Multiset.coe_add, ← Multiset.coe_add, ← Multiset.coe_add]
  calc (((up.erase pile).filter p : List ℤ) : Multiset ℤ) + ↑([card].filter p)
        + ↑(down.filter p)
      ≤ ((up.filter p : List ℤ) : Multiset ℤ) + {card} + ↑(down.filter p) :=
        add_le_add (add_le_add (filter_erase_le up pile p) (filter_singleton_le card p))
          (le_refl _)
    _ = ((up.filter p : List ℤ) : Multiset ℤ) + ↑(down.filter p) + {card} := by abel

/-- The filtered tops after a descending play are bounded by the old
filtered tops plus the played card. -/
theorem tops_down_le (up down : List ℤ) (pile card : ℤ) (p : ℤ → Bool) :
    (((up ++ (down.erase pile ++ [card])).filter p : List ℤ) : Multiset ℤ)
      ≤ (((up ++ down).filter p : List ℤ) : Multiset ℤ) + {card} := by
  simp only [List.filter_append]
  rw [← Multiset.coe_add, ← Multiset.coe_add, ← Multiset.coe_add]
  calc ((up.filter p : List ℤ) : Multiset ℤ)
        + (((down.erase pile).filter p : List ℤ) + ↑([card].filter p))
      ≤ ((up.filter p : List ℤ) : Multiset ℤ) + (↑(down.filter p) + {card}) :=
        add_le_add (le_refl _)
          (add_le_add (filter_erase_le down pile p) (filter_singleton_le card p))
    _ = ((up.filter p : List ℤ) : Multiset ℤ) + ↑(down.filter p) + {card} := by abel

/-- Cancellation step shared by the conservation proofs: moving a batch
`R` from one summand to another while retiring `H` leaves the total
unchanged. -/
theorem cards_swap_eq (A B2 AD B H R T : Multiset ℤ)
    (h1 : B2 + H = B + R) (h2 : A + R = AD + H) :
    A + B2 + T = AD + B + T := by
  have key : (A + B2 + T) + (H + R) = (AD + B + T) + (H + R) := by
    calc (A + B2 + T) + (H + R) = (A + R) + (B2 + H) + T := by abel
      _ = (AD + H) + (B + R) + T := by rw [h1, h2]
      _ = (AD + B + T) + (H + R) := by abel
  exact add_right_cancel key

/-- Refilling one player's hand from the deck can only keep or shrink the
cards in play (it conserves them when the player index is in range; an
out-of-range index would discard the drawn cards with the untouched
player list). -/
theorem cards_draw_le (deck : List ℤ) (ps : List Player) (c : ℕ) (hs : ℕ) (T : Multiset ℤ) :
    ((drawLoop deck (ps.getD c default).hand hs).1 : Multiset ℤ)
        + ↑(((ps.set c { ps.getD c default with
              hand := (drawLoop deck (ps.getD c default).hand hs).2 }).map Player.hand).flatten)
        + T
      ≤ (deck : Multiset ℤ) + ↑((ps.map Player.hand).flatten) + T := by
  by_cases hc : c < ps.length
  · have hfl := flatten_set_hand ps c { ps.getD c default with
        hand := (drawLoop deck (ps.getD c default).hand hs).2 } hc
    simp only [] at hfl
    have hdl := drawLoop_cards deck (ps.getD c default).hand hs
    exact le_of_eq (cards_swap_eq _ _ _ _ _ _ _ hfl hdl)
  · rw [List.set_eq_of_length_le (by omega)]
    have hA : ((drawLoop deck (ps.getD c default).hand hs).1 : Multiset ℤ)
        ≤ (deck : Multiset ℤ) := by
      have hD : ps.getD c default = default := List.getD_eq_default _ _ (by omega)
      rw [hD]
      have hdl := drawLoop_cards deck (default : Player).hand hs
      rw [show (((default : Player).hand : List ℤ) : Multiset ℤ) = 0 from rfl,
        add_zero] at hdl
      exact hdl ▸ Multiset.le_add_right _ _
    exact add_le_add_right (add_le_add_right hA _) T

/-- Playing a card — removing it from the active hand, erasing the
addressed top and appending the card as a new top — can only keep or
shrink the cards in play (the covered top leaves the tally when it is
not a sentinel). -/
theorem cards_play_le (deck : List ℤ) (ps : List Player) (c : ℕ) (card : ℤ)
    (tops tops2 : List ℤ) (p : ℤ → Bool)
    (hcard : card ∈ (ps.getD c default).hand)
    (htops : ((tops2.filter p : List ℤ) : Multiset ℤ)
      ≤ ((tops.filter p : List ℤ) : Multiset ℤ) + {card}) :
    (deck : Multiset ℤ)
        + ↑(((ps.set c { ps.getD c default with
              hand := (ps.getD c default).hand.erase card }).map Player.hand).flatten)
        + ((tops2.filter p : List ℤ) : Multiset ℤ)
      ≤ (deck : Multiset ℤ) + ↑((ps.map Player.hand).flatten)
        + ((tops.filter p : List ℤ) : Multiset ℤ) := by
  have hc : c < ps.length := getD_hand_lt ps c (fun hh => by rw [hh] at hcard; simp at hcard)
  have hfl := flatten_set_hand ps c { ps.getD c default with
      hand := (ps.getD c default).hand.erase card } hc
  simp only [] at hfl
  have herase : ((((ps.getD c default).hand.erase card : List ℤ)) : Multiset ℤ) + {card}
      = (((ps.getD c default).hand : List ℤ) : Multiset ℤ) := by
    rw [← Multiset.coe_erase, add_comm, Multiset.singleton_add]
    exact Multiset.cons_erase (Multiset.mem_coe.mpr hcard)
  have hB : (((((ps.set c { ps.getD c default with
        hand := (ps.getD c default).hand.erase card }).map Player.hand).flatten : List ℤ))
          : Multiset ℤ) + {card}
      = (((ps.map Player.hand).flatten : List ℤ) : Multiset ℤ) := by
    have h2 : ((((((ps.set c { ps.getD c default with
          hand := (ps.getD c default).hand.erase card }).map Player.hand).flatten : List ℤ))
            : Multiset ℤ) + {card})
          + (((ps.getD c default).hand.erase card : List ℤ) : Multiset ℤ)
        = ((((ps.map Player.hand).flatten : List ℤ)) : Multiset ℤ)
          + (((ps.getD c default).hand.erase card : List ℤ) : Multiset ℤ) := by
      calc (((((ps.set c { ps.getD c default with
              hand := (ps.getD c default).hand.erase card }).map Player.hand).flatten
                : List ℤ)) : Multiset ℤ) + {card}
            + (((ps.getD c default).hand.erase card : List ℤ) : Multiset ℤ)
          = (((((ps.set c { ps.getD c default with
              hand := (ps.getD c default).hand.erase card }).map Player.hand).flatten
                : List ℤ)) : Multiset ℤ)
            + ((((ps.getD c default).hand.erase card : List ℤ) : Multiset ℤ) + {card}) := by
              abel
        _ = (((((ps.set c { ps.getD c default with
              hand := (ps.getD c default).hand.erase card }).map Player.hand).flatten
                : List ℤ)) : Multiset ℤ)
            + (((ps.getD c default).hand : List ℤ) : Multiset ℤ) := by rw [herase]
        _ = ((((ps.map Player.hand).flatten : List ℤ)) : Multiset ℤ)
            + (((ps.getD c default).hand.erase card : List ℤ) : Multiset ℤ) := hfl
    exact add_right_cancel h2
  calc (deck : Multiset ℤ)
        + ↑(((ps.set c { ps.getD c default with
              hand := (ps.getD c default).hand.erase card }).map Player.hand).flatten)
        + ((tops2.filter p : List ℤ) : Multiset ℤ)
      ≤ (deck : Multiset ℤ)
        + ↑(((ps.set c { ps.getD c default with
              hand := (ps.getD c default).hand.erase card }).map Player.hand).flatten)
        + (((tops.filter p : List ℤ) : Multiset ℤ) + {card}) := add_le_add_left htops _
    _ = (deck : Multiset ℤ) + ↑((ps.map Player.hand).flatten)
        + ((tops.filter p : List ℤ) : Multiset ℤ) := by rw [← hB]; abel

/-- The shared tail `afterPlay` never adds cards to the play tally. -/
theorem afterPlay_cards (g3 : Game) (c : ℕ) (s : ℚ) :
    cardsInPlay (afterPlay g3 c s).st ≤ cardsInPlay g3 := by
  unfold afterPlay
  split
  · exact le_of_eq rfl
  · simp only []
    split
    · split
      · exact cards_draw_le g3.deck g3.players c g3.hand_size _
      · exact cards_draw_le g3.deck g3.players c g3.hand_size _
    · exact le_of_eq rfl

/-- The play branch never adds cards to the play tally. -/
theorem playBranch_cards (g1 : Game) (c ci pi : ℕ) :
    cardsInPlay (g1.playBranch c ci pi).st ≤ cardsInPlay g1 := by
  simp only [Game.playBranch]
  split
  · exact le_of_eq rfl
  · split
    · exact le_of_eq rfl
    · split
      · exact le_of_eq rfl
      · rename_i hidx
        have hlt : ci < (g1.players.getD c default).hand.length := by omega
        have hcard := getD_mem _ _ hlt
        split
        · split
          · refine le_trans (afterPlay_cards _ _ _) ?_
            exact cards_play_le _ _ c _ _ _ _ hcard (tops_up_le _ _ _ _ _)
          · exact le_of_eq rfl
        · split
          · split
            · refine le_trans (afterPlay_cards _ _ _) ?_
              exact cards_play_le _ _ c _ _ _ _ hcard (tops_down_le _ _ _ _ _)
            · exact le_of_eq rfl
          · exact le_of_eq rfl

/-- The claim branch never touches the cards in play. -/
theorem claimBranch_cards (g1 : Game) (c pi : ℕ) :
    cardsInPlay (g1.claimBranch c pi).st ≤ cardsInPlay g1 := by
  simp only [Game.claimBranch]
  split
  · exact le_of_eq rfl
  · split
    · exact le_of_eq rfl
    · exact le_of_eq rfl

/-- A full `step` never adds cards to the play tally. -/
theorem step_cards (g : Game) (a : ℕ × ℕ × ℕ) :
    cardsInPlay (g.step a).st ≤ cardsInPlay g := by
  simp only [Game.step]
  split
  · exact le_of_eq rfl
  · split
    · exact le_of_eq rfl
    · split
      · refine le_trans (playBranch_cards _ _ _ _) ?_
        split <;> exact le_of_eq rfl
      · split
        · refine le_trans (claimBranch_cards _ _ _) ?_
          split <;> exact le_of_eq rfl
        · split <;> exact le_of_eq rfl

/-- C6 (amended): at `reset`, the multiset union of the deck, all hands,
and the non-sentinel pile tops is exactly the shuffled full deck
`{2, …, 99}`; in every reachable state that union is a sub-multiset of
`{2, …, 99}` (hence duplicate-free), but equality is not an invariant —
a legal play erases the covered previous top from the state, so every
non-sentinel top that gets covered leaves the union for good. -/
theorem C6_card_conservation :
    (∀ np hs nmp pc d,
        cardsInPlay (Game.reset np hs nmp pc (1, 100) d) = (d : Multiset ℤ)) ∧
    (∀ g, Reachable g → cardsInPlay g ≤ fullDeck) := by
  refine ⟨fun np hs nmp pc d => reset_cards np hs nmp pc d, fun g hg => ?_⟩
  induction hg with
  | base np hs nmp pc d hd => exact le_of_eq (by rw [reset_cards, hd])
  | play g a hg ih => exact le_trans (step_cards g a) ih

/-- C6 witness: for the identity shuffle, the reset state's cards in play
are exactly the full deck and in particular a sub-multiset of it. -/
theorem C6_witness :
    cardsInPlay (Game.reset 1 2 2 (2, 2) (1, 100) idDeck) = (idDeck : Multiset ℤ) ∧
    cardsInPlay (Game.reset 1 2 2 (2, 2) (1, 100) idDeck) ≤ fullDeck :=
  ⟨C6_card_conservation.1 1 2 2 (2, 2) idDeck,
    C6_card_conservation.2 _ (Reachable.base 1 2 2 (2, 2) idDeck rfl)⟩

/-- A three-step reachable walk: one player with a two-card hand
`[99, 98]` plays 98 onto the first ascending pile, claims nothing, then
plays 99 onto the same pile (now at index 1), covering — and thereby
discarding — the top 98. -/
def gC6x : Game :=
  ((((Game.reset 1 2 2 (2, 2) (1, 100) idDeck).step (0, 1, 27)).st.step
      (1, 0, 0)).st.step (0, 0, 9)).st

/-- C6 counterexample: the state `gC6x` is reachable, yet its cards in
play are not the full deck — the card 98 was buried by the second play
and has vanished from the deck, the hands and the pile tops. -/
theorem C6_counterexample :
    Reachable gC6x ∧ ¬ cardsInPlay gC6x = fullDeck := by
  constructor
  · exact Reachable.play _ _ (Reachable.play _ _ (Reachable.play _ _
      (Reachable.base 1 2 2 (2, 2) idDeck rfl)))
  · intro h
    have h98 : (98 : ℤ) ∈ fullDeck := by decide
    rw [← h] at h98
    exact absurd h98 (by decide)

end TheGame
